import Mathlib

/-!
Verification of the oapi-rustgen generator core against its specification.

The development shallowly embeds the generator's analyzer, renamer and code
writers (src/oapi-rustgen/src/analyzer.rs, renamer.rs, types_writer.rs,
client_writer.rs).  JSON pointers are embedded as lists of unescaped tokens
(`Ptr`); the serialized OpenAPI document is embedded as a `Json` tree; panics
of the Rust code are embedded as `Option.none`.

The crate's passive spec-model module (the `Spec`/`Schema` data types with
their serde derivations) is not part of the analyzed sources; those data
types are modelled from the specification document and marked as such below.
-/

namespace OapiRustgen

/-- A JSON pointer, as a list of unescaped reference tokens.  The Rust code
uses `jsonptr::Pointer`, whose equality coincides with token-list equality
because `~`/`/` escaping is injective on tokens. -/
abbrev Ptr := List String

/-- RFC 6901 escaping of a single character inside a pointer token. -/
def escapeChar (c : Char) : List Char :=
  if c = '~' then ['~', '0'] else if c = '/' then ['~', '1'] else [c]

/-- RFC 6901 escaping of a pointer token, as performed by `jsonptr::Token`. -/
def escapeTok (t : String) : String :=
  ⟨t.data.foldr (fun c acc => escapeChar c ++ acc) []⟩

/-- The string form of a pointer (`jsonptr::Pointer::as_str`): each token is
escaped and preceded by a slash; the root pointer is the empty string. -/
def ptrToString (p : Ptr) : String :=
  ⟨(p.map (fun t => '/' :: (escapeTok t).data)).flatten⟩

/-- Unescaping of the character data of one pointer token
(inverse of `escapeTok`); a stray `~` is an error. -/
def unescapeChars : List Char → Option (List Char)
  | [] => some []
  | '~' :: '0' :: rest => (unescapeChars rest).map (fun l => '~' :: l)
  | '~' :: '1' :: rest => (unescapeChars rest).map (fun l => '/' :: l)
  | '~' :: _ => none
  | c :: rest => (unescapeChars rest).map (fun l => c :: l)

/-- Split a character list at every occurrence of a separator character. -/
def splitOnChar (sep : Char) (l : List Char) : List (List Char) :=
  l.foldr
    (fun c acc =>
      if c = sep then [] :: acc
      else
        match acc with
        | a :: as => (c :: a) :: as
        | [] => [[c]])
    [[]]

/-- Parse a pointer from its string form (`jsonptr::Pointer::from_str`):
the empty string is the root pointer, otherwise the string must start with
a slash and each slash-separated component is unescaped. -/
def ptrFromString (s : String) : Option Ptr :=
  match s.data with
  | [] => some []
  | '/' :: rest =>
      (splitOnChar '/' rest).mapM (fun cs => (unescapeChars cs).map (fun l => String.mk l))
  | _ => none

/-- A JSON value, embedding `serde_json::Value`.  Numbers are embedded as
integers; none of the verified code inspects numeric payloads. -/
inductive Json where
  | null : Json
  | bool (b : Bool) : Json
  | num (n : Int) : Json
  | str (s : String) : Json
  | arr (elems : List Json) : Json
  | obj (fields : List (String × Json)) : Json

/-- First-match field lookup in a JSON object's field list (serde_json maps
have unique keys, so first-match agrees with map lookup). -/
def getField : List (String × Json) → String → Option Json
  | [], _ => none
  | (k, v) :: rest, key => if k = key then some v else getField rest key

/-- Value of a decimal digit character; non-digits map to 0 and are guarded
by `isDigit` checks at every use site. -/
def digitVal (c : Char) : Nat :=
  match c with
  | '0' => 0 | '1' => 1 | '2' => 2 | '3' => 3 | '4' => 4
  | '5' => 5 | '6' => 6 | '7' => 7 | '8' => 8 | '9' => 9
  | _ => 0

def isDigitChar (c : Char) : Bool :=
  c = '0' ∨ c = '1' ∨ c = '2' ∨ c = '3' ∨ c = '4' ∨
  c = '5' ∨ c = '6' ∨ c = '7' ∨ c = '8' ∨ c = '9'

/-- The numeric value of a big-endian digit string. -/
def digitsVal (l : List Char) : Nat :=
  l.foldl (fun a c => 10 * a + digitVal c) 0

/-- Decode a token as an array index (RFC 6901): a nonempty digit string
without leading zeros. -/
def tokToIndex (t : String) : Option Nat :=
  match t.data with
  | [] => none
  | [c] => if isDigitChar c then some (digitVal c) else none
  | c :: rest =>
      if c = '0' then none
      else if isDigitChar c ∧ rest.all isDigitChar then some (digitsVal (c :: rest))
      else none

/-- Pointer resolution against a JSON value (`jsonptr::Resolve` on
`serde_json::Value`): objects are looked up by token, arrays by index. -/
def Json.resolve (j : Json) : Ptr → Option Json
  | [] => some j
  | t :: rest =>
      match j with
      | .obj fs => (getField fs t).bind (fun v => v.resolve rest)
      | .arr xs => (tokToIndex t).bind (fun i => (xs.get? i).bind (fun v => v.resolve rest))
      | _ => none

mutual

/-- Well-formedness of a JSON value: every object in the tree has pairwise
distinct keys.  Any value produced by serializing a serde map-based `Spec`
has this property. -/
def Json.wf : Json → Bool
  | .obj fs => decide ((fs.map Prod.fst).Nodup) && jsonFieldsWf fs
  | .arr xs => jsonElemsWf xs
  | _ => true

def jsonFieldsWf : List (String × Json) → Bool
  | [] => true
  | (_, v) :: rest => v.wf && jsonFieldsWf rest

def jsonElemsWf : List Json → Bool
  | [] => true
  | v :: rest => v.wf && jsonElemsWf rest

end

/-- The character of a decimal digit (`d < 10` at every use site). -/
def natDigitChar (d : Nat) : Char :=
  match d with
  | 0 => '0' | 1 => '1' | 2 => '2' | 3 => '3' | 4 => '4'
  | 5 => '5' | 6 => '6' | 7 => '7' | 8 => '8' | _ => '9'

/-- The decimal digits of a natural number, big-endian, with explicit
recursion fuel (`n + 1` at the top level always suffices, since `n / 10`
strictly decreases). -/
def natDigitsGo : Nat → Nat → List Char → List Char
  | 0, _, acc => acc
  | fuel + 1, n, acc =>
      if n < 10 then natDigitChar n :: acc
      else natDigitsGo fuel (n / 10) (natDigitChar (n % 10) :: acc)

/-- The decimal string of a natural number, embedding Rust's
`usize::to_string` (same digits as Lean's `Nat.repr`, defined here directly
so that injectivity is provable by elementary means). -/
def natToString (n : Nat) : String :=
  ⟨natDigitsGo (n + 1) n []⟩

/-- The `type` field of a schema (`SchemaType` in the spec model).
Modelled from the spec: the spec-model module is not among the analyzed
sources; §3 of the specification lists the supported values. -/
inductive SchemaType where
  | object | array | integer | number | string | boolean
deriving DecidableEq

/-- A value that is either inline or a `$ref` (spec/ref.rs,
`ObjectOrReference<T>`). -/
inductive ObjOrRef (α : Type) where
  | ref (ptr : Ptr) : ObjOrRef α
  | obj (val : α) : ObjOrRef α

/-- The JSON-Schema subset supported by the generator.
Modelled from the spec: the spec-model module is not among the analyzed
sources; §3 and §6 of the specification list the recognized fields, and the
analyzer's uses fix their types (optional `type`/`format`/`nullable`,
list-valued `required`/`properties`/`anyOf`/`allOf`/`oneOf`, optional
`items`). -/
inductive Schema where
  | mk
      (schema_type : Option SchemaType)
      (format : Option String)
      (nullable : Option Bool)
      (required : List String)
      (properties : List (String × ObjOrRef Schema))
      (items : Option (ObjOrRef Schema))
      (any_of : List (ObjOrRef Schema))
      (all_of : List (ObjOrRef Schema))
      (one_of : List (ObjOrRef Schema)) : Schema

def Schema.schema_type : Schema → Option SchemaType
  | .mk t _ _ _ _ _ _ _ _ => t

def Schema.format : Schema → Option String
  | .mk _ f _ _ _ _ _ _ _ => f

def Schema.nullable : Schema → Option Bool
  | .mk _ _ n _ _ _ _ _ _ => n

def Schema.required : Schema → List String
  | .mk _ _ _ r _ _ _ _ _ => r

def Schema.properties : Schema → List (String × ObjOrRef Schema)
  | .mk _ _ _ _ p _ _ _ _ => p

def Schema.items : Schema → Option (ObjOrRef Schema)
  | .mk _ _ _ _ _ i _ _ _ => i

def Schema.any_of : Schema → List (ObjOrRef Schema)
  | .mk _ _ _ _ _ _ a _ _ => a

def Schema.all_of : Schema → List (ObjOrRef Schema)
  | .mk _ _ _ _ _ _ _ a _ => a

def Schema.one_of : Schema → List (ObjOrRef Schema)
  | .mk _ _ _ _ _ _ _ _ o => o

def schemaTypeOfString (s : String) : Option SchemaType :=
  if s = "object" then some .object
  else if s = "array" then some .array
  else if s = "integer" then some .integer
  else if s = "number" then some .number
  else if s = "string" then some .string
  else if s = "boolean" then some .boolean
  else none

/-- Serde decoding of an optional string-valued field. -/
def parseOptString : Option Json → Option (Option String)
  | none => some none
  | some .null => some none
  | some (.str s) => some (some s)
  | some _ => none

/-- Serde decoding of an optional boolean-valued field. -/
def parseOptBool : Option Json → Option (Option Bool)
  | none => some none
  | some .null => some none
  | some (.bool b) => some (some b)
  | some _ => none

/-- Serde decoding of the optional `type` field. -/
def parseSchemaTypeField : Option Json → Option (Option SchemaType)
  | none => some none
  | some .null => some none
  | some (.str s) => (schemaTypeOfString s).map some
  | some _ => none

/-- Serde decoding of a defaulted list-of-strings field (`required`). -/
def parseStringList : Option Json → Option (List String)
  | none => some []
  | some (.arr xs) =>
      xs.mapM (fun j => match j with | Json.str s => some s | _ => none)
  | some _ => none

mutual

/-- A size measure on JSON values, used as recursion fuel for the serde
decoders below. -/
def jsonSize : Json → Nat
  | .obj fs => 2 + jsonFieldsSize fs
  | .arr xs => 2 + jsonElemsSize xs
  | _ => 1

def jsonFieldsSize : List (String × Json) → Nat
  | [] => 0
  | (_, v) :: rest => 1 + jsonSize v + jsonFieldsSize rest

def jsonElemsSize : List Json → Nat
  | [] => 0
  | v :: rest => 1 + jsonSize v + jsonElemsSize rest

end

mutual

/-- Serde decoding of `ObjectOrReference<Schema>` from a JSON value
(spec/ref.rs `Deserialize`), with explicit recursion fuel: a `"$ref"`
string field wins and is parsed as a pointer; otherwise the value must
decode as a `Schema`.  Fuel `jsonSize j` is always sufficient; exhausted
fuel behaves like a decoding failure. -/
def objOrRefOfJsonF : Nat → Json → Option (ObjOrRef Schema)
  | 0, _ => none
  | fuel + 1, j =>
      match j with
      | .obj fs =>
          match getField fs "$ref" with
          | some (.str s) => (ptrFromString s).map .ref
          | some _ => none
          | none => (schemaFromFieldsF fuel fs).map .obj
      | _ => none

/-- Serde decoding of a `Schema` from the fields of a JSON object.
Modelled from the spec: the spec-model module is not among the analyzed
sources; unknown fields are ignored and absent list fields default to
empty, per §3/§6 of the specification. -/
def schemaFromFieldsF : Nat → List (String × Json) → Option Schema
  | 0, _ => none
  | fuel + 1, fs =>
      (parseSchemaTypeField (getField fs "type")).bind fun st =>
      (parseOptString (getField fs "format")).bind fun fmt =>
      (parseOptBool (getField fs "nullable")).bind fun nb =>
      (parseStringList (getField fs "required")).bind fun req =>
      (match getField fs "properties" with
       | none => some []
       | some (.obj pf) => propsOfJsonF fuel pf
       | some _ => none).bind fun props =>
      (match getField fs "items" with
       | none => some none
       | some .null => some none
       | some v => (objOrRefOfJsonF fuel v).map some).bind fun its =>
      (match getField fs "anyOf" with
       | none => some []
       | some (.arr xs) => branchesOfJsonF fuel xs
       | some _ => none).bind fun anyOf =>
      (match getField fs "allOf" with
       | none => some []
       | some (.arr xs) => branchesOfJsonF fuel xs
       | some _ => none).bind fun allOf =>
      (match getField fs "oneOf" with
       | none => some []
       | some (.arr xs) => branchesOfJsonF fuel xs
       | some _ => none).bind fun oneOf =>
      some (.mk st fmt nb req props its anyOf allOf oneOf)

def propsOfJsonF : Nat → List (String × Json) → Option (List (String × ObjOrRef Schema))
  | 0, _ => none
  | _ + 1, [] => some []
  | fuel + 1, (k, v) :: rest =>
      (objOrRefOfJsonF fuel v).bind fun sc =>
      (propsOfJsonF fuel rest).map fun tl => (k, sc) :: tl

def branchesOfJsonF : Nat → List Json → Option (List (ObjOrRef Schema))
  | 0, _ => none
  | _ + 1, [] => some []
  | fuel + 1, v :: rest =>
      (objOrRefOfJsonF fuel v).bind fun sc =>
      (branchesOfJsonF fuel rest).map fun tl => sc :: tl

end

/-- Serde decoding of `ObjectOrReference<Schema>`, with its canonical
(always sufficient) fuel. -/
def objOrRefOfJson (j : Json) : Option (ObjOrRef Schema) :=
  objOrRefOfJsonF (jsonSize j) j

/-- Delimiter characters of the default case-conversion boundaries.
Modelled from the spec: the `convert_case` crate is an external
collaborator; its default boundaries are delimiters, lower-to-upper
transitions and acronym ends. -/
def isDelim (c : Char) : Bool :=
  c = '_' || c = '-' || c = ' '

/-- Split on delimiter characters, discarding empty chunks. -/
def delimSplit (l : List Char) : List (List Char) :=
  (l.foldr
    (fun c acc =>
      if isDelim c then [] :: acc
      else
        match acc with
        | a :: as => (c :: a) :: as
        | [] => [[c]])
    [[]]).filter (fun a => !a.isEmpty)

/-- Split one delimiter-free chunk at case boundaries (lower→upper and
upper→upper→lower); `cur` is the current word reversed. -/
def caseSplitGo (cur : List Char) : List Char → List (List Char)
  | [] => [cur.reverse]
  | c :: rest =>
      if (cur.headD 'a').isLower && c.isUpper then
        cur.reverse :: caseSplitGo [c] rest
      else
        match rest with
        | c2 :: _ =>
            if (cur.headD 'a').isUpper && c.isUpper && c2.isLower then
              cur.reverse :: caseSplitGo [c] rest
            else caseSplitGo (c :: cur) rest
        | [] => caseSplitGo (c :: cur) rest

def caseSplit : List Char → List (List Char)
  | [] => []
  | c :: rest => caseSplitGo [c] rest

/-- The word list of an identifier, per the modelled case conversion. -/
def toWords (s : String) : List (List Char) :=
  (delimSplit s.data).flatMap caseSplit

def pascalWord (w : List Char) : List Char :=
  match w with
  | [] => []
  | c :: rest => c.toUpper :: rest.map Char.toLower

/-- The PascalCase conversion (`to_case(Case::Pascal)`). -/
def toCasePascal (s : String) : String :=
  ⟨((toWords s).map pascalWord).flatten⟩

def joinSep (sep : Char) : List (List Char) → List Char
  | [] => []
  | [w] => w
  | w :: rest => w ++ sep :: joinSep sep rest

/-- The snake_case conversion (`to_case(Case::Snake)`). -/
def toCaseSnake (s : String) : String :=
  ⟨joinSep '_' ((toWords s).map (fun w => w.map Char.toLower))⟩

/-- Identifier filtering used for component names
(renamer.rs `name_from_nth_match`): PascalCase, then drop every
non-alphanumeric character. -/
def nameFromMatch (captured : String) : String :=
  ⟨(toCasePascal captured).data.filter Char.isAlphanum⟩

def asJsonString : Json → Option String
  | .str s => some s
  | _ => none

/-- The `operationId` lookup of `name_operation` (renamer.rs): resolve the
operation pointer, read its `operationId` field, keep it when it is a
string. -/
def lookupOperationId (doc : Json) (p : Ptr) : Option String :=
  ((doc.resolve p).bind
    (fun v => match v with | .obj fs => getField fs "operationId" | _ => none)).bind
    asJsonString

/-- The capture of `OPERATION_REGEX` (`^/paths/([^/]+)/([^/]+)`) on a
pointer string: the escaped path token and the escaped method token. -/
def captureOperation (s : String) : Option (String × String) :=
  match s.data with
  | '/' :: 'p' :: 'a' :: 't' :: 'h' :: 's' :: '/' :: rest =>
      let c1 := rest.takeWhile (fun c => c ≠ '/')
      let r1 := rest.dropWhile (fun c => c ≠ '/')
      if c1.isEmpty then none
      else
        match r1 with
        | '/' :: rest2 =>
            let c2 := rest2.takeWhile (fun c => c ≠ '/')
            if c2.isEmpty then none else some (⟨c1⟩, ⟨c2⟩)
        | _ => none
  | _ => none

/-- Split on the two-character pattern `~1`
(Rust `str::split("~1")` on the captured escaped path). -/
def splitOnTilde1 : List Char → List (List Char)
  | [] => [[]]
  | '~' :: '1' :: rest => [] :: splitOnTilde1 rest
  | c :: rest =>
      match splitOnTilde1 rest with
      | a :: as => (c :: a) :: as
      | [] => [[c]]

/-- Unwrap a `{param}` placeholder segment to the bare parameter name
(renamer.rs, the `starts_with('{') && ends_with('}')` branch). -/
def unwrapBraces (seg : List Char) : List Char :=
  match seg with
  | '{' :: rest => if rest.getLast? = some '}' then rest.dropLast else seg
  | _ => seg

/-- Capitalize the first character of a segment (renamer.rs, the
`enumerate`/`to_uppercase` fold), ASCII model of `char::to_uppercase`. -/
def capFirst (w : List Char) : List Char :=
  match w with
  | [] => []
  | c :: rest => c.toUpper :: rest

/-- The synthesized operation name from the two escaped captures:
`{MethodPascal}{PathPascal}` (renamer.rs `name_operation`, no-operationId
branch). -/
def nameOperationSynth (pathCap methodCap : String) : String :=
  toCasePascal methodCap ++
    toCasePascal ⟨((splitOnTilde1 pathCap.data).map (fun seg => capFirst (unwrapBraces seg))).flatten⟩

/-- `DefaultRenamer::name_operation` (renamer.rs): prefer a string-valued
`operationId` at the pointer, PascalCased; otherwise synthesize from the
`OPERATION_REGEX` captures.  A failed capture is a panic (`none`). -/
def nameOperation (doc : Json) (p : Ptr) : Option String :=
  match lookupOperationId doc p with
  | some oid => some (toCasePascal oid)
  | none => (captureOperation (ptrToString p)).map (fun pm => nameOperationSynth pm.1 pm.2)

/-- The four anchored component regexes of `name_type` (renamer.rs), on
token lists.  Escaped tokens contain no slash, so each `[^/]+` capture is
exactly one escaped token, nonempty iff the token is nonempty. -/
def componentNameOf (ts : Ptr) : Option String :=
  match ts with
  | ["components", "schemas", n] =>
      if n ≠ "" then some (nameFromMatch (escapeTok n)) else none
  | ["components", "requestBodies", n, "content", m, "schema"] =>
      if n ≠ "" ∧ m ≠ "" then some (nameFromMatch (escapeTok n)) else none
  | ["components", "parameters", n, "schema"] =>
      if n ≠ "" then some (nameFromMatch (escapeTok n)) else none
  | ["components", "responses", n, "content", m, "schema"] =>
      if n ≠ "" ∧ m ≠ "" then some (nameFromMatch (escapeTok n)) else none
  | _ => none

/-- The three anchored operation regexes of `name_type` (renamer.rs):
request bodies, parameters and response bodies under `/paths`.  Returns the
path and method tokens (after the `Pointer::from_str` round trip of
`operation_name_from_captures`) and the name suffix built from the escaped
captures. -/
def operationPieceOf (ts : Ptr) : Option (String × String × String) :=
  match ts with
  | ["paths", p, m, "requestBody", "content", mt, "schema"] =>
      if p ≠ "" ∧ m ≠ "" ∧ mt ≠ "" then some (p, m, "Request") else none
  | ["paths", p, m, "parameters", i, "schema"] =>
      if p ≠ "" ∧ m ≠ "" ∧ i ≠ "" then some (p, m, "Parameter" ++ escapeTok i) else none
  | ["paths", p, m, "responses", c, "content", mt, "schema"] =>
      if p ≠ "" ∧ m ≠ "" ∧ c ≠ "" ∧ mt ≠ "" then some (p, m, "Response" ++ escapeTok c)
      else none
  | _ => none

/-- Leftmost-first match of `SCHEMA_PROPERTY_REGEX`
(`(.+)/properties/([^/]+)`) on a pointer string, in token form: the greedy
`.+` selects the last token equal to `properties` that is preceded by at
least one token and followed by a nonempty token. -/
def propMatch (ts : Ptr) : Option Nat :=
  ((List.range ts.length).filter
    (fun i =>
      decide (1 ≤ i) && (ts.getD i "" == "properties") &&
      decide (i + 1 < ts.length) && (ts.getD (i + 1) "" != ""))).getLast?

/-- Prefix test on character lists (kernel-reducible). -/
def charsPrefix : List Char → List Char → Bool
  | [], _ => true
  | _ :: _, [] => false
  | a :: as, b :: bs => a = b && charsPrefix as bs

/-- Leftmost-first match of `SCHEMA_ITEMS_REGEX` (`(.+)/items`): the greedy
`.+` selects the last token whose escaped form starts with `items` and that
is preceded by at least one token. -/
def itemsMatch (ts : Ptr) : Option Nat :=
  ((List.range ts.length).filter
    (fun i => decide (1 ≤ i) && charsPrefix "items".data (escapeTok (ts.getD i "")).data)).getLast?

/-- Leftmost-first match of `SCHEMA_COMPOSITE_REGEX`
(`(.+)/(anyOf|allOf|oneOf)/([0-9]+)`): the last `anyOf`/`allOf`/`oneOf`
token preceded by at least one token and followed by a token whose escaped
form starts with a digit. -/
def compositeMatch (ts : Ptr) : Option Nat :=
  ((List.range ts.length).filter
    (fun i =>
      decide (1 ≤ i) &&
      (ts.getD i "" == "anyOf" || ts.getD i "" == "allOf" || ts.getD i "" == "oneOf") &&
      decide (i + 1 < ts.length) &&
      (match (escapeTok (ts.getD (i + 1) "")).data with
       | c :: _ => isDigitChar c
       | [] => false))).getLast?

/-- The greedy `[0-9]+` capture at the start of an escaped token. -/
def digitsPrefix (s : String) : String :=
  ⟨s.data.takeWhile isDigitChar⟩

/-- `DefaultRenamer::name_type` (renamer.rs), with explicit recursion fuel;
each recursive call names a strictly shorter parent pointer, so
`p.length` fuel at the top level never runs out.  `none` embeds the
`unreachable!` panic on an unmatched pointer. -/
def nameTypeAux (doc : Json) : Nat → Ptr → Option String
  | 0, _ => none
  | fuel + 1, ts =>
      match componentNameOf ts with
      | some nm => some nm
      | none =>
      match operationPieceOf ts with
      | some (p, m, suffix) =>
          (nameOperation doc ["paths", p, m]).map (fun opName => opName ++ suffix)
      | none =>
      match propMatch ts with
      | some i =>
          (nameTypeAux doc fuel (ts.take i)).map
            (fun parent => parent ++ toCasePascal (escapeTok (ts.getD (i + 1) "")))
      | none =>
      match itemsMatch ts with
      | some i => (nameTypeAux doc fuel (ts.take i)).map (fun parent => parent ++ "Item")
      | none =>
      match compositeMatch ts with
      | some i =>
          (nameTypeAux doc fuel (ts.take i)).map
            (fun parent => parent ++ "V" ++ digitsPrefix (escapeTok (ts.getD (i + 1) "")))
      | none => none

def nameType (doc : Json) (p : Ptr) : Option String :=
  nameTypeAux doc p.length p

/-- A schema that must become a named type (analyzer.rs `CollectedSchema`). -/
structure CollectedSchema where
  location : Ptr
  name : String
  schema : Schema

/-- `AnalysisResult::find_schema`: first collected schema at a pointer. -/
def findSchema (collected : List CollectedSchema) (p : Ptr) : Option CollectedSchema :=
  collected.find? (fun c => c.location == p)

/-- The composite test of the analyzer's dispatch
(`!any_of.is_empty() || !all_of.is_empty() || !one_of.is_empty()`). -/
def Schema.isComposite (sc : Schema) : Bool :=
  !sc.any_of.isEmpty || !sc.all_of.isEmpty || !sc.one_of.isEmpty

/-- Branch pointers pushed for a composite schema
(analyzer.rs `collect_types_to_generate`, composite arm): `anyOf` indices,
then `allOf`, then `oneOf`. -/
def branchPushes (q : Ptr) (sc : Schema) : List Ptr :=
  (List.range sc.any_of.length).map (fun i => q ++ ["anyOf", natToString i]) ++
  (List.range sc.all_of.length).map (fun i => q ++ ["allOf", natToString i]) ++
  (List.range sc.one_of.length).map (fun i => q ++ ["oneOf", natToString i])

/-- Property pointers pushed for an object schema: inline (non-`$ref`)
properties only. -/
def propPushes (q : Ptr) (sc : Schema) : List Ptr :=
  sc.properties.filterMap
    (fun nv =>
      match nv.2 with
      | .obj _ => some (q ++ ["properties", nv.1])
      | .ref _ => none)

/-- Items pointer pushed for an array schema: only when `items` is inline. -/
def itemsPushes (q : Ptr) (sc : Schema) : List Ptr :=
  match sc.items with
  | some (.obj _) => [q ++ ["items"]]
  | _ => []

/-- Sequence a fallible map over a list, short-circuiting on the first
failure; embeds iteration in which a panic aborts the run. -/
def mapMO {α β : Type} (f : α → Option β) : List α → Option (List β)
  | [] => some []
  | a :: rest => (f a).bind (fun b => (mapMO f rest).map (fun tl => b :: tl))

/-- Remove and return the last element of a list (`Vec::pop`). -/
def popLast {α : Type} : List α → Option (List α × α)
  | [] => none
  | [a] => some ([], a)
  | a :: rest => (popLast rest).map (fun la => (a :: la.1, la.2))

/-- The worklist loop of `collect_types_to_generate` (analyzer.rs):
pop the last pointer, resolve it in the serialized spec, decode it as
`ObjectOrReference<Schema>`, and dispatch.  Composite and object schemas
are recorded (named by the default renamer) and expanded; array schemas
push inline items; everything else is dropped.  `none` embeds the panics
(unresolvable pointer, undecodable schema, unnameable pointer); the fuel
only bounds the number of iterations and is chosen large enough at every
use site. -/
def collectLoop (doc : Json) : Nat → List Ptr → List CollectedSchema → Option (List CollectedSchema)
  | 0, _, _ => none
  | fuel + 1, pending, acc =>
      match popLast pending with
      | none => some acc
      | some (rest, q) =>
          match doc.resolve q with
          | none => none
          | some v =>
              match objOrRefOfJson v with
              | none => none
              | some (.ref _) => collectLoop doc fuel rest acc
              | some (.obj sc) =>
                  if sc.isComposite then
                    match nameType doc q with
                    | none => none
                    | some nm =>
                        collectLoop doc fuel (rest ++ branchPushes q sc) (acc ++ [⟨q, nm, sc⟩])
                  else if sc.schema_type = some .object then
                    match nameType doc q with
                    | none => none
                    | some nm =>
                        collectLoop doc fuel (rest ++ propPushes q sc) (acc ++ [⟨q, nm, sc⟩])
                  else if sc.schema_type = some .array then
                    collectLoop doc fuel (rest ++ itemsPushes q sc) acc
                  else collectLoop doc fuel rest acc

/-- Parameter locations (`ParameterLocation` in the spec model).
Modelled from the spec: §3 of the specification. -/
inductive ParamLocation where
  | path | query | header | cookie
deriving DecidableEq

/-- A media type entry.  Modelled from the spec: the spec-model module is
not among the analyzed sources (§3, `content-type → media-type with
schema`). -/
structure MediaTypeM where
  schema : Option (ObjOrRef Schema)

/-- A response object.  Modelled from the spec (§3). -/
structure ResponseM where
  content : List (String × MediaTypeM)

/-- A parameter object.  Modelled from the spec (§3): `name`,
`location`, optional inline `schema`. -/
structure ParameterM where
  name : String
  location : ParamLocation
  schema : Option Schema

/-- A request body object.  Modelled from the spec (§3). -/
structure RequestBodyM where
  content : List (String × MediaTypeM)

/-- An operation.  Modelled from the spec (§3): parameters, optional
request body and a status-code-keyed response map. -/
structure OperationM where
  parameters : List (ObjOrRef ParameterM)
  request_body : Option (ObjOrRef RequestBodyM)
  responses : List (String × ObjOrRef ResponseM)

/-- The `components` section.  Modelled from the spec (§3). -/
structure ComponentsM where
  schemas : List (String × ObjOrRef Schema)
  responses : List (String × ObjOrRef ResponseM)
  parameters : List (String × ObjOrRef ParameterM)
  request_bodies : List (String × ObjOrRef RequestBodyM)

/-- The parsed spec.  Modelled from the spec (§3): `components` plus
`paths` mapping each path pattern to its per-method operations; method
keys are stored in the lowercase form used for pointer tokens. -/
structure SpecM where
  components : ComponentsM
  paths : List (String × List (String × OperationM))

/-- `Spec::operations()`: every `(path, method, operation)` triple in
`paths` iteration order.  Modelled from the spec (§3). -/
def specOperations (spec : SpecM) : List (String × String × OperationM) :=
  spec.paths.flatMap (fun pi => pi.2.map (fun mo => (pi.1, mo.1, mo.2)))

/-- `collect_initial_types_from_media_types` (analyzer.rs): the media-type
keys whose schema is present and inline. -/
def mediaInline (content : List (String × MediaTypeM)) : List String :=
  content.filterMap
    (fun mmt =>
      match mmt.2.schema with
      | some (.obj _) => some mmt.1
      | _ => none)

def opParamSeeds (path mth : String) (op : OperationM) : List Ptr :=
  op.parameters.enum.filterMap
    (fun ip =>
      match ip.2 with
      | .obj pobj =>
          if pobj.schema.isSome then
            some ["paths", path, mth, "parameters", natToString ip.1, "schema"]
          else none
      | .ref _ => none)

def opReqBodySeeds (path mth : String) (op : OperationM) : List Ptr :=
  match op.request_body with
  | some (.obj r) =>
      (mediaInline r.content).map
        (fun m => ["paths", path, mth, "requestBody", "content", m, "schema"])
  | _ => []

def opResponseSeeds (path mth : String) (op : OperationM) : List Ptr :=
  op.responses.flatMap
    (fun sr =>
      match sr.2 with
      | .obj robj =>
          (mediaInline robj.content).map
            (fun m => ["paths", path, mth, "responses", sr.1, "content", m, "schema"])
      | .ref _ => [])

/-- `collect_initial_types_to_generate` (analyzer.rs): the seed worklist —
component schemas, component response/parameter/requestBody schemas with
inline content, then per operation the inline parameter schemas, request
body schemas and response body schemas. -/
def collectInitial (spec : SpecM) : List Ptr :=
  (spec.components.schemas.map (fun nk => ["components", "schemas", nk.1])) ++
  (spec.components.responses.flatMap
    (fun nr =>
      match nr.2 with
      | .obj robj =>
          (mediaInline robj.content).map
            (fun m => ["components", "responses", nr.1, "content", m, "schema"])
      | .ref _ => [])) ++
  (spec.components.parameters.filterMap
    (fun np =>
      match np.2 with
      | .obj pobj =>
          if pobj.schema.isSome then some ["components", "parameters", np.1, "schema"]
          else none
      | .ref _ => none)) ++
  (spec.components.request_bodies.flatMap
    (fun nr =>
      match nr.2 with
      | .obj robj =>
          (mediaInline robj.content).map
            (fun m => ["components", "requestBodies", nr.1, "content", m, "schema"])
      | .ref _ => [])) ++
  ((specOperations spec).flatMap
    (fun pmo =>
      opParamSeeds pmo.1 pmo.2.1 pmo.2.2 ++
      opReqBodySeeds pmo.1 pmo.2.1 pmo.2.2 ++
      opResponseSeeds pmo.1 pmo.2.1 pmo.2.2))

/-- Greedy decomposition of the tokens appended to a seed pointer during
worklist expansion into the chunks pushed by the dispatch: a `properties`
token always starts a two-token chunk, as do `anyOf`/`allOf`/`oneOf`, and
an `items` token is a one-token chunk.  The first token determines each
chunk, so the decomposition is unique when it exists. -/
def chunkKey (t : String) : Bool :=
  t = "properties" || t = "anyOf" || t = "allOf" || t = "oneOf"

def chunkSplit : List String → Option (List (List String))
  | [] => some []
  | t :: rest =>
      if t = "items" then (chunkSplit rest).map (fun cs => ["items"] :: cs)
      else if chunkKey t then
        match rest with
        | [] => none
        | n :: rest2 => (chunkSplit rest2).map (fun cs => [t, n] :: cs)
      else none

/-- The token chunks that worklist expansion can append to a pointer. -/
def IsChunk (c : List String) : Prop :=
  (∃ n, c = ["properties", n]) ∨ (∃ i, c = ["anyOf", i]) ∨
  (∃ i, c = ["allOf", i]) ∨ (∃ i, c = ["oneOf", i]) ∨ c = ["items"]

/-- A decomposition of a worklist pointer into a seed from `S` and the
chunk list appended to it. -/
def Decomp (S : List Ptr) (p s : Ptr) (cs : List (List String)) : Prop :=
  s ∈ S ∧ ∃ r, p = s ++ r ∧ chunkSplit r = some cs

/-- No seed extends another seed. -/
def PrefixFree (S : List Ptr) : Prop :=
  ∀ s1 ∈ S, ∀ s2 ∈ S, (∃ t, s1 ++ t = s2) → s1 = s2

/-- Well-formedness of a content map: distinct media-type keys. -/
def wfContent (content : List (String × MediaTypeM)) : Bool :=
  decide ((content.map Prod.fst).Nodup)

def wfRespRef : ObjOrRef ResponseM → Bool
  | .obj r => wfContent r.content
  | .ref _ => true

def wfReqBodyRef : ObjOrRef RequestBodyM → Bool
  | .obj r => wfContent r.content
  | .ref _ => true

/-- Well-formedness of an operation: distinct response status keys and
well-formed content maps. -/
def wfOperation (op : OperationM) : Bool :=
  decide ((op.responses.map Prod.fst).Nodup) &&
  (op.responses.all (fun sr => wfRespRef sr.2)) &&
  (match op.request_body with
   | some rb => wfReqBodyRef rb
   | none => true)

/-- Well-formedness of a parsed spec: every serde map in it has pairwise
distinct keys (serde `BTreeMap`s guarantee this for every spec that
deserializes successfully). -/
def wfSpec (spec : SpecM) : Bool :=
  decide ((spec.components.schemas.map Prod.fst).Nodup) &&
  decide ((spec.components.responses.map Prod.fst).Nodup) &&
  decide ((spec.components.parameters.map Prod.fst).Nodup) &&
  decide ((spec.components.request_bodies.map Prod.fst).Nodup) &&
  (spec.components.responses.all (fun nr => wfRespRef nr.2)) &&
  (spec.components.request_bodies.all (fun nr => wfReqBodyRef nr.2)) &&
  decide ((spec.paths.map Prod.fst).Nodup) &&
  (spec.paths.all (fun pi =>
    decide ((pi.2.map Prod.fst).Nodup) && pi.2.all (fun mo => wfOperation mo.2)))

/-- The nullable wrapper of `AnalysisResult::name_type` (analyzer.rs
`make_nullable`): applied on inline schemas with `nullable == true`. -/
def mkNullableOf (nb : Option Bool) (s : String) : String :=
  if nb = some true then "Option<" ++ s ++ ">" else s

mutual

/-- A computable size on schemas, used as recursion fuel below. -/
def orSize : ObjOrRef Schema → Nat
  | .ref _ => 1
  | .obj s => 1 + schemaSize s

def schemaSize : Schema → Nat
  | .mk _ _ _ _ props its a b o =>
      1 + schemaPropsSize props + schemaItemsSize its +
        schemaListSize a + schemaListSize b + schemaListSize o

def schemaPropsSize : List (String × ObjOrRef Schema) → Nat
  | [] => 0
  | (_, v) :: rest => 1 + orSize v + schemaPropsSize rest

def schemaItemsSize : Option (ObjOrRef Schema) → Nat
  | none => 0
  | some v => 1 + orSize v

def schemaListSize : List (ObjOrRef Schema) → Nat
  | [] => 0
  | v :: rest => 1 + orSize v + schemaListSize rest

end

/-- `AnalysisResult::name_type` (analyzer.rs), with explicit recursion
fuel (recursion descends only through `items`, so `orSize` of the schema
argument — supplied by the wrapper below — is always sufficient): a
collected pointer uses its recorded name; otherwise the inline schema (or
`$ref` target) determines the type expression, wrapped in `Option<…>`
when the inline schema is nullable (`make_nullable`).  `none` embeds the
panics on unresolvable references and uncollected object pointers. -/
def analysisNameTypeF (collected : List CollectedSchema) :
    Nat → Ptr → ObjOrRef Schema → Option String
  | 0, _, _ => none
  | fuel + 1, ptr, schema =>
      match findSchema collected ptr with
      | some ty => some ty.name
      | none =>
          match schema with
          | .ref refPath => (findSchema collected refPath).map CollectedSchema.name
          | .obj sc =>
              if sc.schema_type = some .object then
                (findSchema collected ptr).map (fun c => mkNullableOf sc.nullable c.name)
              else if sc.schema_type = some .array then
                match sc.items with
                | some it =>
                    (analysisNameTypeF collected fuel (ptr ++ ["items"]) it).map
                      (fun t => mkNullableOf sc.nullable ("Vec<" ++ t ++ ">"))
                | none => some (mkNullableOf sc.nullable "Vec<serde_json::Value>")
              else if sc.schema_type = some .integer then
                some (mkNullableOf sc.nullable (if sc.format = some "int32" then "i32" else "i64"))
              else if sc.schema_type = some .number then
                some (mkNullableOf sc.nullable (if sc.format = some "float" then "f32" else "f64"))
              else if sc.schema_type = some .string then some (mkNullableOf sc.nullable "String")
              else if sc.schema_type = some .boolean then some (mkNullableOf sc.nullable "bool")
              else some "serde_json::Value"

def analysisNameType (collected : List CollectedSchema) (ptr : Ptr) (schema : ObjOrRef Schema) :
    Option String :=
  analysisNameTypeF collected (orSize schema) ptr schema

/-- One element of a parsed operation path (analyzer.rs
`SegmentOrParameter`). -/
inductive SegmentOrParameter where
  | segment (s : String) : SegmentOrParameter
  | parameter (s : String) : SegmentOrParameter
deriving DecidableEq

def SegmentOrParameter.isEmptySeg : SegmentOrParameter → Bool
  | .segment s => s.isEmpty
  | .parameter s => s.isEmpty

/-- One step of the character fold that parses an operation path
(analyzer.rs `AnalysisResult::operations`, lines 287–325).  `none` embeds
the panics on misplaced braces. -/
def pathStep (memo : List SegmentOrParameter) (c : Char) : Option (List SegmentOrParameter) :=
  if c = '/' then
    if memo.isEmpty then some memo else some (memo ++ [.segment ""])
  else if c = '{' then
    match popLast memo with
    | some (rest, s) => if s.isEmptySeg then some (rest ++ [.parameter ""]) else none
    | none => none
  else if c = '}' then
    match memo.getLast? with
    | some (.parameter _) => some memo
    | _ => none
  else
    match popLast memo with
    | none => some [.segment (String.singleton c)]
    | some (rest, .segment s) => some (rest ++ [.segment (s.push c)])
    | some (rest, .parameter s) => some (rest ++ [.parameter (s.push c)])

/-- The path parser of operation construction: a character fold over the
path string. -/
def parsePath (path : String) : Option (List SegmentOrParameter) :=
  path.data.foldlM pathStep []

/-- The URL format string of the generated client (client_writer.rs
`write_awc_path`): starts with a `\x7b\x7d` placeholder for the base URL,
then one `/segment` or `/placeholder` per path element. -/
def awcFormatString (path : List SegmentOrParameter) : String :=
  path.foldl
    (fun memo v =>
      match v with
      | .segment s => memo ++ "/" ++ s
      | .parameter _ => memo ++ "/{}")
    "{}"

/-- Lexicographic comparison of character lists (kernel-reducible; agrees
with Rust's byte-wise `Ord` on `String`, since UTF-8 byte order coincides
with scalar-value order). -/
def charsLt : List Char → List Char → Bool
  | [], [] => false
  | [], _ :: _ => true
  | _ :: _, [] => false
  | a :: as, b :: bs => a < b || (a = b && charsLt as bs)

/-- Lexicographic string order (Rust `Ord` on `String`). -/
def strLt (a b : String) : Bool :=
  charsLt a.data b.data

/-- Ordered-map insertion by string key, modelling `BTreeMap` collection:
the resulting association list is sorted strictly by key. -/
def btreeInsert {α : Type} (k : String) (v : α) : List (String × α) → List (String × α)
  | [] => [(k, v)]
  | (k2, v2) :: rest =>
      if strLt k k2 then (k, v) :: (k2, v2) :: rest
      else if k = k2 then (k, v) :: rest
      else (k2, v2) :: btreeInsert k v rest

/-- `collect::<BTreeMap<_, _>>()` over an entry sequence. -/
def btreeOfList {α : Type} (l : List (String × α)) : List (String × α) :=
  l.foldl (fun m kv => btreeInsert kv.1 kv.2 m) []

/-- Map lookup in a content map (`BTreeMap::get`; keys are unique, so
first-match lookup agrees). -/
def lookupContent (content : List (String × MediaTypeM)) (k : String) : Option MediaTypeM :=
  match content with
  | [] => none
  | (k2, v) :: rest => if k2 = k then some v else lookupContent rest k

/-- One entry of the `responses` map of operation construction
(analyzer.rs lines 377–402).  For an inline response the
`application/json` schema (when present) is named — a naming panic aborts
(`none`); for a `$ref` response the referenced collected schema's name is
used when found, and silently `Option.none` (a bodyless response)
otherwise. -/
def responseEntry (collected : List CollectedSchema) (opPtr : Ptr) (status : String)
    (r : ObjOrRef ResponseM) : Option (String × Option String) :=
  match r with
  | .obj robj =>
      let ptr := opPtr ++ ["responses", status, "content", "application/json", "schema"]
      match (lookupContent robj.content "application/json").bind MediaTypeM.schema with
      | some schema => (analysisNameType collected ptr schema).map (fun t => (status, some t))
      | none => some (status, none)
  | .ref refPath => some (status, (findSchema collected refPath).map CollectedSchema.name)

/-- The full `responses` map of an operation: every entry computed, then
collected into a `BTreeMap`. -/
def mkResponses (collected : List CollectedSchema) (opPtr : Ptr)
    (entries : List (String × ObjOrRef ResponseM)) : Option (List (String × Option String)) :=
  (mapMO (fun sr => responseEntry collected opPtr sr.1 sr.2) entries).map btreeOfList

/-- The `request_body` field of operation construction (analyzer.rs lines
358–376).  The outer `Option` embeds panics: an unresolvable `$ref`
request body aborts. -/
def requestBodyName (collected : List CollectedSchema) (opPtr : Ptr) :
    Option (ObjOrRef RequestBodyM) → Option (Option String)
  | none => some none
  | some (.obj s) =>
      let ptr := opPtr ++ ["request_body", "content", "application/json", "schema"]
      match (lookupContent s.content "application/json").bind MediaTypeM.schema with
      | some schema => (analysisNameType collected ptr schema).map some
      | none => some none
  | some (.ref refPath) => (findSchema collected refPath).map (fun c => some c.name)

/-- The `response` envelope name of an operation (analyzer.rs lines
403–414): the single entry's body type (or `()`), else
`{OperationName}Response`. -/
def envelopeName (operationName : String) (responses : List (String × Option String)) : String :=
  if responses.length = 1 then
    match responses.head? with
    | some (_, some t) => t
    | _ => "()"
  else operationName ++ "Response"

/-- The fields of an `OperationDef` used by the verified writers
(analyzer.rs).  The `(name, location) → ParameterDef` map is not needed by
the properties verified here and is omitted. -/
structure OperationDef where
  name : String
  method : String
  path : List SegmentOrParameter
  request_body : Option String
  response : String
  responses : List (String × Option String)

/-- `OperationDef::has_default_response`. -/
def OperationDef.has_default_response (o : OperationDef) : Bool :=
  o.responses.any (fun sv => sv.1 == "default")

/-- Construction of one `OperationDef` (analyzer.rs
`AnalysisResult::operations`, per-operation body): operation name, parsed
path, request body type, responses map and response envelope name. -/
def mkOperationDef (doc : Json) (collected : List CollectedSchema) (path mth : String)
    (op : OperationM) : Option OperationDef :=
  let opPtr : Ptr := ["paths", path, mth]
  match nameOperation doc opPtr with
  | none => none
  | some operationName =>
      match parsePath path with
      | none => none
      | some segs =>
          match requestBodyName collected opPtr op.request_body with
          | none => none
          | some rb =>
              match mkResponses collected opPtr op.responses with
              | none => none
              | some resps =>
                  some ⟨toCaseSnake operationName, mth, segs, rb,
                    envelopeName operationName resps, resps⟩

/-- The response envelope emitted by the types writer (types_writer.rs
lines 48–62): only for operations with more than one response; one
`S{status}` variant per responses-map entry, in map order. -/
def envelopeEnum (o : OperationDef) : Option (String × List (String × Option String)) :=
  if o.responses.length > 1 then some (o.response, o.responses) else none

/-- Decoding of `str::parse::<u16>()`: optional leading `+`, then decimal
digits, bounded by `u16::MAX`. -/
def parseU16 (s : String) : Option Nat :=
  let ds := match s.data with
    | '+' :: rest => rest
    | l => l
  if ds ≠ [] ∧ ds.all isDigitChar then
    if digitsVal ds < 65536 then some (digitsVal ds) else none
  else none

/-- A match pattern of the generated status dispatch. -/
inductive MatchPattern where
  | status (n : Nat) : MatchPattern
  | wildcard : MatchPattern
deriving DecidableEq

/-- The body of one generated match arm (client_writer.rs
`write_awc_response_handler` and the appended wildcard arm):
`Ok(())`, a directly parsed body, an envelope variant with or without body, or
the `UnexpectedResponse` error carrying the listed fields. -/
inductive ArmBody where
  | okUnit : ArmBody
  | okBody (ty : String) : ArmBody
  | variantBody (envelope status ty : String) : ArmBody
  | variantNoBody (envelope status : String) : ArmBody
  | unexpected (fields : List String) : ArmBody
deriving DecidableEq

structure MatchArm where
  pattern : MatchPattern
  body : ArmBody
deriving DecidableEq

/-- The right-hand side of one response match arm
(client_writer.rs `write_awc_response_handler`, lines 163–186): a
single-response operation returns the body (or unit) directly, otherwise
the envelope variant. -/
def armBodyOf (o : OperationDef) (status : String) (response : Option String) : ArmBody :=
  if o.responses.length = 1 then
    if o.response = "()" then .okUnit else .okBody o.response
  else
    match response with
    | some ty => .variantBody o.response status ty
    | none => .variantNoBody o.response status

/-- `ClientWriter::write_awc_response_handler` (client_writer.rs lines
152–189): numeric status codes become literal patterns, `default` becomes
the wildcard pattern, anything else panics. -/
def writeAwcResponseHandler (o : OperationDef) (status : String) (response : Option String) :
    Option MatchArm :=
  match (match parseU16 status with
         | some n => some (MatchPattern.status n)
         | none => if status = "default" then some MatchPattern.wildcard else none) with
  | none => none
  | some pat => some ⟨pat, armBodyOf o status response⟩

/-- The wildcard arm appended when no `default` response is declared
(client_writer.rs lines 104–110): an `UnexpectedResponse` built from the
method, the URL and the received status code. -/
def unexpectedArm : MatchArm :=
  ⟨.wildcard, .unexpected ["method", "url", "status_code"]⟩

/-- The generated match arms of one client operation (client_writer.rs
lines 101–111): one arm per responses-map entry in map order, then the
`UnexpectedResponse` wildcard arm unless a `default` response exists. -/
def clientMatchArms (o : OperationDef) : Option (List MatchArm) :=
  (mapMO (fun sr => writeAwcResponseHandler o sr.1 sr.2) o.responses).map
    (fun arms => arms ++ (if o.has_default_response then [] else [unexpectedArm]))

/-- Rust keywords escaped by the ident check of the struct writer.
Modelled from the spec: `syn` is an external collaborator; a keyword fails
to parse as an identifier and is emitted with the `r#` prefix
(types_writer.rs lines 175–177). -/
def rustKeywords : List String :=
  ["as", "break", "const", "continue", "crate", "else", "enum", "extern", "false", "fn",
   "for", "if", "impl", "in", "let", "loop", "match", "mod", "move", "mut", "pub", "ref",
   "return", "self", "Self", "static", "struct", "super", "trait", "true", "type",
   "unsafe", "use", "where", "while", "async", "await", "dyn", "abstract", "become",
   "box", "do", "final", "macro", "override", "priv", "typeof", "unsized", "virtual",
   "yield", "try"]

def escapeIdent (n : String) : String :=
  if n ∈ rustKeywords then "r#" ++ n else n

/-- One emitted struct field (types_writer.rs `PropertyDef`). -/
structure PropertyDef where
  name : String
  json_name : String
  ptype : String
deriving DecidableEq

/-- The fields emitted for an object schema
(`TypesWriter::write_struct_to_tokens`, types_writer.rs lines 161–184):
the field type is `name_type` of the property pointer, wrapped in
`Option<…>` iff the property name is absent from `required`. -/
def writeStructFields (collected : List CollectedSchema) (loc : Ptr) (sc : Schema) :
    Option (List PropertyDef) :=
  mapMO
    (fun nv =>
      (analysisNameType collected (loc ++ ["properties", nv.1]) nv.2).map
        (fun fieldType =>
          ⟨escapeIdent (toCaseSnake nv.1), nv.1,
            if nv.1 ∈ sc.required then fieldType else "Option<" ++ fieldType ++ ">"⟩))
    sc.properties

/-- The variants emitted for a `oneOf` composite
(`TypesWriter::write_composite_to_tokens`, types_writer.rs lines 139–158):
one `V{i}` variant per branch whose payload type is `name_type` of the
branch pointer.  The source joins the literal token `allOf` — not `oneOf`
— onto the composite's location here (line 141); this embedding keeps that
token verbatim. -/
def oneOfVariants (collected : List CollectedSchema) (ty : CollectedSchema) :
    Option (List (Nat × String)) :=
  mapMO
    (fun ib =>
      (analysisNameType collected (ty.location ++ ["allOf", natToString ib.1]) ib.2).map
        (fun t => (ib.1, t)))
    ty.schema.one_of.enum

/-- An inline `{type: string, nullable: true}` schema. -/
def strNullable : Schema :=
  .mk (some .string) none (some true) [] [] none [] [] []

/-- An object schema `X` with one nullable string property `note` that is
not listed in `required`. -/
def xSchemaNoReq : Schema :=
  .mk (some .object) none none [] [("note", .obj strNullable)] none [] [] []

/-- The serialized document of a spec whose only component schema is
`Kind = {oneOf: [{type: object}]}` — a `oneOf` composite with one inline
object branch. -/
def kindDoc : Json :=
  .obj [("components", .obj [("schemas", .obj [("Kind",
    .obj [("oneOf", .arr [.obj [("type", .str "object")]])])])])]

/-- The spec tree matching `kindDoc` (the seed collection only reads the
component names). -/
def kindSpec : SpecM :=
  ⟨⟨[("Kind", .ref [])], [], [], []⟩, []⟩

/-- The inline `oneOf` branch of `kindDoc` as a decoded schema. -/
def kindBranch : Schema :=
  .mk (some .object) none none [] [] none [] [] []

/-- The `Kind` composite of `kindDoc` as a decoded schema. -/
def kindSchema : Schema :=
  .mk none none none [] [] none [] [] [.obj kindBranch]

/-- An operation with two responses and no `default` entry. -/
def opNoDefault : OperationDef :=
  ⟨"find_pets", "get", [.segment "pets"], none, "FindPetsResponse",
    [("200", some "Pet"), ("404", none)]⟩

/-- An operation with two responses, one of which is `default`. -/
def opWithDefault : OperationDef :=
  ⟨"find_pets", "get", [.segment "pets"], none, "FindPetsResponse",
    [("200", some "Pet"), ("default", some "Error")]⟩

/-- The match arms generated for `opNoDefault`. -/
def armsNoDefault : List MatchArm :=
  [⟨.status 200, .variantBody "FindPetsResponse" "200" "Pet"⟩,
   ⟨.status 404, .variantNoBody "FindPetsResponse" "404"⟩,
   ⟨.wildcard, .unexpected ["method", "url", "status_code"]⟩]

/-- The match arms generated for `opWithDefault`. -/
def armsWithDefault : List MatchArm :=
  [⟨.status 200, .variantBody "FindPetsResponse" "200" "Pet"⟩,
   ⟨.wildcard, .variantBody "FindPetsResponse" "default" "Error"⟩]

/-- A document carrying an `operationId` for `GET /pets`. -/
def opIdDoc : Json :=
  .obj [("paths", .obj [("/pets", .obj [("get",
    .obj [("operationId", .str "findPets")])])])]

/-- The JSON value sitting at `/components/schemas/Kind` in `kindDoc`. -/
def kindJson : Json :=
  .obj [("oneOf", .arr [.obj [("type", .str "object")]])]

/-- C1: the computed `OperationDef.response` is `()` when the single
response entry has no body, the single entry's body type name when it has
one, and `{OperationName}Response` whenever there are two or more response
entries. -/
theorem c1_response_envelope (opName : String) (responses : List (String × Option String)) :
    (∀ st, responses = [(st, none)] → envelopeName opName responses = "()") ∧
    (∀ st t, responses = [(st, some t)] → envelopeName opName responses = t) ∧
    (2 ≤ responses.length → envelopeName opName responses = opName ++ "Response") := by
  refine ⟨?_, ?_, ?_⟩
  · intro st h
    subst h
    rfl
  · intro st t h
    subst h
    rfl
  · intro h
    have hne : responses.length ≠ 1 := by omega
    simp [envelopeName, hne]

/-- Witness for C1 at concrete inputs: a single bodyless response, a single
response with body, and a two-entry response map. -/
theorem c1_response_envelope_witness :
    envelopeName "DeletePet" [("204", none)] = "()" ∧
    envelopeName "GetPet" [("200", some "Pet")] = "Pet" ∧
    envelopeName "FindPets" [("200", some "Pet"), ("default", some "Error")] =
      "FindPetsResponse" :=
  ⟨(c1_response_envelope "DeletePet" [("204", none)]).1 "204" rfl,
   (c1_response_envelope "GetPet" [("200", some "Pet")]).2.1 "200" "Pet" rfl,
   (c1_response_envelope "FindPets" [("200", some "Pet"), ("default", some "Error")]).2.2
     (by decide)⟩

/-- C2 counterexample: parsing `/pets/{id}` does not produce the claimed
list `[Segment "", Segment "pets", Segment "", Parameter "id"]` — the fold
pushes nothing for the leading slash and replaces the empty segment before
`{` by the parameter. -/
theorem c2_path_counterexample :
    parsePath "/pets/{id}" ≠
      some [.segment "", .segment "pets", .segment "", .parameter "id"] := by
  decide

/-- C2 as amended: the fold keeps empty segments between adjacent slashes
but drops the leading empty segment, and a balanced `\x7b...\x7d` directly
after a slash replaces the preceding empty segment with a Parameter; for
`/pets/{id}` the path is `[Segment "pets", Parameter "id"]` and the client
URL format string is `\x7b\x7d/pets/\x7b\x7d`, i.e. `{base}/pets/{id_value}`. -/
theorem c2_path_amended :
    parsePath "/pets/{id}" = some [.segment "pets", .parameter "id"] ∧
    (parsePath "/pets/{id}").map awcFormatString = some "{}/pets/{}" ∧
    parsePath "/a//b" = some [.segment "a", .segment "", .segment "b"] := by
  refine ⟨by decide, by decide, by decide⟩

/-- C3 counterexample: for the object schema `X` whose property `note` is
an inline `{type: string, nullable: true}` schema absent from `required`,
the emitted field type is `Option<Option<String>>`, not `Option<String>`. -/
theorem c3_nullable_counterexample :
    (writeStructFields [] ["components", "schemas", "X"] xSchemaNoReq).map
        (fun l => l.map PropertyDef.ptype) = some ["Option<Option<String>>"] ∧
    ("Option<Option<String>>" : String) ≠ "Option<String>" := by
  refine ⟨by decide, by decide⟩

/-- C3 as amended: an inline `{type: string, nullable: true}` property is
typed `Option<String>` when the property is in `required`, and
`Option<Option<String>>` when it is not (the nullable wrapper composes
with the optionality wrapper). -/
theorem c3_nullable_inline (collected : List CollectedSchema) (loc : Ptr) (nm : String)
    (required : List String)
    (hnc : findSchema collected (loc ++ ["properties", nm]) = none) :
    writeStructFields collected loc
        (Schema.mk (some .object) none none required [(nm, .obj strNullable)] none [] [] []) =
      some [⟨escapeIdent (toCaseSnake nm), nm,
        if nm ∈ required then "Option<String>" else "Option<Option<String>>"⟩] := by
  have hname : analysisNameType collected (loc ++ ["properties", nm]) (.obj strNullable) =
      some "Option<String>" := by
    have h2 : orSize (ObjOrRef.obj strNullable) = 2 := rfl
    simp only [analysisNameType, h2]
    simp [analysisNameTypeF, hnc, strNullable, Schema.schema_type, Schema.nullable, mkNullableOf]
  simp [writeStructFields, mapMO, Schema.properties, Schema.required, hname]

/-- Witness for C3 as amended, at a concrete empty collected list, for both
a required and a non-required property. -/
theorem c3_nullable_inline_witness :
    (writeStructFields [] ["components", "schemas", "X"]
        (Schema.mk (some .object) none none [] [("note", .obj strNullable)] none [] [] []) =
      some [⟨"note", "note", "Option<Option<String>>"⟩]) ∧
    (writeStructFields [] ["components", "schemas", "X"]
        (Schema.mk (some .object) none none ["note"] [("note", .obj strNullable)] none [] [] []) =
      some [⟨"note", "note", "Option<String>"⟩]) := by
  constructor
  · have h := c3_nullable_inline [] ["components", "schemas", "X"] "note" [] rfl
    simpa using h
  · have h := c3_nullable_inline [] ["components", "schemas", "X"] "note" ["note"] rfl
    simpa using h

/-- C4 (code bug): for `Kind = {oneOf: [{type: object}]}`, schema discovery
collects the inline branch at `/components/schemas/Kind/oneOf/0` under the
name `KindV0`, but the `oneOf` writer looks the branch up at
`/components/schemas/Kind/allOf/0` (types_writer.rs line 141 joins
`allOf`), finds nothing, and panics instead of emitting `V0(KindV0)`. -/
theorem c4_oneof_pointer_bug :
    ((collectLoop kindDoc 10 (collectInitial kindSpec) []).map
        (fun l => l.map (fun c => (c.location, c.name))) =
      some [(["components", "schemas", "Kind"], "Kind"),
            (["components", "schemas", "Kind", "oneOf", "0"], "KindV0")]) ∧
    ((collectLoop kindDoc 10 (collectInitial kindSpec) []).bind
        (fun col => (findSchema col ["components", "schemas", "Kind"]).bind
          (fun kind => oneOfVariants col kind)) = none) := by
  refine ⟨by decide, by decide⟩

theorem popLast_concat {α : Type} : ∀ (l : List α) (a : α), popLast (l ++ [a]) = some (l, a) := by
  intro l a
  induction l with
  | nil => rfl
  | cons x xs ih =>
      cases xs with
      | nil => rfl
      | cons y ys =>
          show popLast (x :: ((y :: ys) ++ [a])) = some (x :: y :: ys, a)
          simp only [popLast]
          rw [show (y :: ys.append [a]) = (y :: ys) ++ [a] from rfl, ih]
          rfl

/-- C5: one iteration of the discovery worklist dispatches the popped
pointer by the decoded schema: a composite schema is recorded and its
branch pointers pushed; an object schema is recorded and its inline
property pointers pushed; an array schema is not recorded and pushes its
items pointer only when inline; any other schema is neither recorded nor
expanded. -/
theorem c5_discovery_dispatch (doc : Json) (fuel : Nat) (rest : List Ptr) (q : Ptr)
    (acc : List CollectedSchema) (v : Json) (sc : Schema)
    (hres : doc.resolve q = some v) (hdec : objOrRefOfJson v = some (.obj sc)) :
    (sc.isComposite = true → ∀ nm, nameType doc q = some nm →
      collectLoop doc (fuel + 1) (rest ++ [q]) acc =
        collectLoop doc fuel (rest ++ branchPushes q sc) (acc ++ [⟨q, nm, sc⟩])) ∧
    (sc.isComposite = false → sc.schema_type = some .object → ∀ nm, nameType doc q = some nm →
      collectLoop doc (fuel + 1) (rest ++ [q]) acc =
        collectLoop doc fuel (rest ++ propPushes q sc) (acc ++ [⟨q, nm, sc⟩])) ∧
    (sc.isComposite = false → sc.schema_type = some .array →
      collectLoop doc (fuel + 1) (rest ++ [q]) acc =
        collectLoop doc fuel (rest ++ itemsPushes q sc) acc) ∧
    (sc.isComposite = false → sc.schema_type ≠ some .object → sc.schema_type ≠ some .array →
      collectLoop doc (fuel + 1) (rest ++ [q]) acc = collectLoop doc fuel rest acc) := by
  refine ⟨?_, ?_, ?_, ?_⟩
  · intro hc nm hnm
    simp only [collectLoop, popLast_concat, hres, hdec, hc, hnm]
    simp
  · intro hc hobj nm hnm
    simp only [collectLoop, popLast_concat, hres, hdec, hc, hobj, hnm]
    simp
  · intro hc harr
    have hobj : sc.schema_type ≠ some SchemaType.object := by
      rw [harr]
      simp
    simp only [collectLoop, popLast_concat, hres, hdec, hc, harr, hobj]
    simp
  · intro hc hobj harr
    simp only [collectLoop, popLast_concat, hres, hdec, hc]
    simp [hobj, harr]

/-- Witness for C5 at a concrete input: the `Kind` composite of `kindDoc`,
whose dispatch takes the composite arm. -/
theorem c5_discovery_dispatch_witness :
    (kindSchema.isComposite = true → ∀ nm,
        nameType kindDoc ["components", "schemas", "Kind"] = some nm →
      collectLoop kindDoc 6 ([] ++ [["components", "schemas", "Kind"]]) [] =
        collectLoop kindDoc 5
          ([] ++ branchPushes ["components", "schemas", "Kind"] kindSchema)
          ([] ++ [⟨["components", "schemas", "Kind"], nm, kindSchema⟩])) ∧
    (kindSchema.isComposite = false → kindSchema.schema_type = some .object → ∀ nm,
        nameType kindDoc ["components", "schemas", "Kind"] = some nm →
      collectLoop kindDoc 6 ([] ++ [["components", "schemas", "Kind"]]) [] =
        collectLoop kindDoc 5
          ([] ++ propPushes ["components", "schemas", "Kind"] kindSchema)
          ([] ++ [⟨["components", "schemas", "Kind"], nm, kindSchema⟩])) ∧
    (kindSchema.isComposite = false → kindSchema.schema_type = some .array →
      collectLoop kindDoc 6 ([] ++ [["components", "schemas", "Kind"]]) [] =
        collectLoop kindDoc 5
          ([] ++ itemsPushes ["components", "schemas", "Kind"] kindSchema) []) ∧
    (kindSchema.isComposite = false → kindSchema.schema_type ≠ some .object →
        kindSchema.schema_type ≠ some .array →
      collectLoop kindDoc 6 ([] ++ [["components", "schemas", "Kind"]]) [] =
        collectLoop kindDoc 5 [] []) :=
  c5_discovery_dispatch kindDoc 5 [] ["components", "schemas", "Kind"] [] kindJson kindSchema
    rfl rfl

theorem mapMO_forall2 {α β : Type} (f : α → Option β) :
    ∀ (l : List α) (res : List β), mapMO f l = some res →
      List.Forall₂ (fun a b => f a = some b) l res := by
  intro l
  induction l with
  | nil =>
      intro res h
      simp only [mapMO, Option.some.injEq] at h
      subst h
      exact List.Forall₂.nil
  | cons a rest ih =>
      intro res h
      simp only [mapMO] at h
      cases hfa : f a with
      | none => simp [hfa] at h
      | some b =>
          cases htl : mapMO f rest with
          | none => simp [hfa, htl] at h
          | some tl =>
              rw [hfa, htl] at h
              simp at h
              subst h
              exact List.Forall₂.cons hfa (ih tl htl)

theorem forall2_mem_right {α β : Type} {P : α → β → Prop} :
    ∀ {l : List α} {res : List β}, List.Forall₂ P l res → ∀ b ∈ res, ∃ a ∈ l, P a b := by
  intro l res h
  induction h with
  | nil => intro b hb; simp at hb
  | cons hab _ ih =>
      intro b hb
      rcases List.mem_cons.mp hb with hb | hb
      · subst hb
        exact ⟨_, List.mem_cons_self _ _, hab⟩
      · obtain ⟨a, ha, hPa⟩ := ih b hb
        exact ⟨a, List.mem_cons_of_mem _ ha, hPa⟩

theorem armBodyOf_not_unexpected (o : OperationDef) (st : String) (r : Option String)
    (fields : List String) : armBodyOf o st r ≠ ArmBody.unexpected fields := by
  unfold armBodyOf
  split
  · split <;> simp
  · cases r <;> simp

theorem handler_shape (o : OperationDef) (st : String) (r : Option String) (a : MatchArm)
    (h : writeAwcResponseHandler o st r = some a) :
    a.body = armBodyOf o st r ∧ (a.pattern = .wildcard → st = "default") := by
  unfold writeAwcResponseHandler at h
  cases hp : parseU16 st with
  | some n =>
      rw [hp] at h
      simp only [Option.some.injEq] at h
      subst h
      exact ⟨rfl, fun hw => by cases hw⟩
  | none =>
      rw [hp] at h
      by_cases hd : st = "default"
      · subst hd
        rw [if_pos rfl] at h
        simp only [Option.some.injEq] at h
        subst h
        exact ⟨rfl, fun _ => rfl⟩
      · rw [if_neg hd] at h
        exact Option.noConfusion h

/-- C8: when an operation declares no `default` response, the emitted
match arms end with a wildcard arm returning an `UnexpectedResponse`
carrying the method, URL and status code; when `default` is declared, the
wildcard arm is the `default` response's handler and no
`UnexpectedResponse` arm is emitted. -/
theorem c8_unexpected_wildcard (o : OperationDef) (arms : List MatchArm)
    (h : clientMatchArms o = some arms) :
    (o.has_default_response = false →
      arms.getLast? = some unexpectedArm ∧
      unexpectedArm.pattern = MatchPattern.wildcard ∧
      unexpectedArm.body = ArmBody.unexpected ["method", "url", "status_code"]) ∧
    (o.has_default_response = true →
      (∀ a ∈ arms, ∀ fields, a.body ≠ ArmBody.unexpected fields) ∧
      (∀ a ∈ arms, a.pattern = MatchPattern.wildcard →
        ∃ r, ("default", r) ∈ o.responses ∧
          writeAwcResponseHandler o "default" r = some a)) := by
  unfold clientMatchArms at h
  cases hm : mapMO (fun sr => writeAwcResponseHandler o sr.1 sr.2) o.responses with
  | none => rw [hm] at h; simp at h
  | some handlers =>
      rw [hm] at h
      simp only [Option.map_some', Option.some.injEq] at h
      constructor
      · intro hd
        rw [hd] at h
        simp only [Bool.false_eq_true, if_false] at h
        subst h
        refine ⟨?_, rfl, rfl⟩
        exact List.getLast?_concat _
      · intro hd
        rw [hd] at h
        simp only [if_true] at h
        rw [List.append_nil] at h
        subst h
        have hf2 := mapMO_forall2 (fun sr => writeAwcResponseHandler o sr.1 sr.2)
          o.responses handlers hm
        constructor
        · intro a ha fields
          obtain ⟨sr, _, hh⟩ := forall2_mem_right hf2 a ha
          rw [(handler_shape o sr.1 sr.2 a hh).1]
          exact armBodyOf_not_unexpected o sr.1 sr.2 fields
        · intro a ha hw
          obtain ⟨sr, hsr, hh⟩ := forall2_mem_right hf2 a ha
          have hst := (handler_shape o sr.1 sr.2 a hh).2 hw
          refine ⟨sr.2, ?_, ?_⟩
          · rw [← hst]
            simpa using hsr
          · rw [← hst]
            exact hh

/-- Witness for C8 at concrete operations, one without and one with a
declared `default` response. -/
theorem c8_unexpected_wildcard_witness :
    ((opNoDefault.has_default_response = false →
      armsNoDefault.getLast? = some unexpectedArm ∧
      unexpectedArm.pattern = MatchPattern.wildcard ∧
      unexpectedArm.body = ArmBody.unexpected ["method", "url", "status_code"]) ∧
     (opNoDefault.has_default_response = true →
      (∀ a ∈ armsNoDefault, ∀ fields, a.body ≠ ArmBody.unexpected fields) ∧
      (∀ a ∈ armsNoDefault, a.pattern = MatchPattern.wildcard →
        ∃ r, ("default", r) ∈ opNoDefault.responses ∧
          writeAwcResponseHandler opNoDefault "default" r = some a))) ∧
    ((opWithDefault.has_default_response = false →
      armsWithDefault.getLast? = some unexpectedArm ∧
      unexpectedArm.pattern = MatchPattern.wildcard ∧
      unexpectedArm.body = ArmBody.unexpected ["method", "url", "status_code"]) ∧
     (opWithDefault.has_default_response = true →
      (∀ a ∈ armsWithDefault, ∀ fields, a.body ≠ ArmBody.unexpected fields) ∧
      (∀ a ∈ armsWithDefault, a.pattern = MatchPattern.wildcard →
        ∃ r, ("default", r) ∈ opWithDefault.responses ∧
          writeAwcResponseHandler opWithDefault "default" r = some a))) :=
  ⟨c8_unexpected_wildcard opNoDefault armsNoDefault (by decide),
   c8_unexpected_wildcard opWithDefault armsWithDefault (by decide)⟩

theorem escapeChar_no_slash (c : Char) : ∀ d ∈ escapeChar c, d ≠ '/' := by
  intro d hd
  unfold escapeChar at hd
  by_cases h1 : c = '~'
  · simp [h1] at hd
    rcases hd with h | h <;> simp [h]
  · by_cases h2 : c = '/'
    · simp [h1, h2] at hd
      rcases hd with h | h <;> simp [h]
    · simp [h1, h2] at hd
      subst hd
      exact h2

theorem escapeTok_no_slash (t : String) : ∀ d ∈ (escapeTok t).data, d ≠ '/' := by
  show ∀ d ∈ t.data.foldr (fun c acc => escapeChar c ++ acc) [], d ≠ '/'
  induction t.data with
  | nil => intro d hd; simp at hd
  | cons c rest ih =>
      intro d hd
      simp only [List.foldr_cons, List.mem_append] at hd
      rcases hd with hd | hd
      · exact escapeChar_no_slash c d hd
      · exact ih d hd

theorem escapeChar_ne_nil (c : Char) : escapeChar c ≠ [] := by
  unfold escapeChar
  by_cases h1 : c = '~' <;> by_cases h2 : c = '/' <;> simp [h1, h2]

theorem escapeTok_data_ne_nil (t : String) (h : t ≠ "") : (escapeTok t).data ≠ [] := by
  show t.data.foldr (fun c acc => escapeChar c ++ acc) [] ≠ []
  have hd : t.data ≠ [] := fun hc => h (by cases t; simp at hc; simp [hc])
  cases hl : t.data with
  | nil => exact absurd hl hd
  | cons c rest =>
      simp only [List.foldr_cons]
      intro hc
      exact escapeChar_ne_nil c (List.append_eq_nil.mp hc).1

theorem takeWhile_all_append (q : Char → Bool) :
    ∀ (l l2 : List Char), (∀ c ∈ l, q c = true) →
      (l ++ l2).takeWhile q = l ++ l2.takeWhile q := by
  intro l
  induction l with
  | nil => intro l2 _; simp
  | cons c rest ih =>
      intro l2 hq
      have hc : q c = true := hq c (List.mem_cons_self _ _)
      simp only [List.cons_append, List.takeWhile_cons, hc]
      rw [ih l2 (fun d hd => hq d (List.mem_cons_of_mem _ hd))]
      simp

theorem dropWhile_all_append (q : Char → Bool) :
    ∀ (l l2 : List Char), (∀ c ∈ l, q c = true) →
      (l ++ l2).dropWhile q = l2.dropWhile q := by
  intro l
  induction l with
  | nil => intro l2 _; simp
  | cons c rest ih =>
      intro l2 hq
      have hc : q c = true := hq c (List.mem_cons_self _ _)
      simp only [List.cons_append, List.dropWhile_cons, hc]
      exact ih l2 (fun d hd => hq d (List.mem_cons_of_mem _ hd))

theorem takeWhile_all (q : Char → Bool) :
    ∀ (l : List Char), (∀ c ∈ l, q c = true) → l.takeWhile q = l := by
  intro l hq
  have h := takeWhile_all_append q l [] hq
  simpa using h

theorem captureOperation_shape (l1 l2 : List Char) (h1 : l1 ≠ []) (h2 : l2 ≠ [])
    (hq1 : ∀ c ∈ l1, (decide (¬c = '/')) = true)
    (hq2 : ∀ c ∈ l2, (decide (¬c = '/')) = true) :
    captureOperation ⟨'/' :: 'p' :: 'a' :: 't' :: 'h' :: 's' :: '/' :: (l1 ++ '/' :: l2)⟩ =
      some (⟨l1⟩, ⟨l2⟩) := by
  show (let c1 := List.takeWhile (fun c => decide (c ≠ '/')) (l1 ++ '/' :: l2)
        let r1 := List.dropWhile (fun c => decide (c ≠ '/')) (l1 ++ '/' :: l2)
        if c1.isEmpty = true then none
        else
          match r1 with
          | '/' :: rest2 =>
              let c2 := List.takeWhile (fun c => decide (c ≠ '/')) rest2
              if c2.isEmpty = true then none
              else some ((⟨c1⟩ : String), (⟨c2⟩ : String))
          | _ => none) = some ((⟨l1⟩ : String), (⟨l2⟩ : String))
  rw [takeWhile_all_append _ _ _ hq1, dropWhile_all_append _ _ _ hq1]
  simp only [List.takeWhile_cons, List.dropWhile_cons]
  norm_num
  have hq2b : ∀ c ∈ l2, (!decide (c = '/')) = true := by
    intro c hc
    have := hq2 c hc
    rwa [decide_not] at this
  refine ⟨h1, ?_, ?_⟩
  · cases l2 with
    | nil => exact absurd rfl h2
    | cons c rest =>
        refine ⟨by simp, ?_⟩
        have := hq2 c (List.mem_cons_self _ _)
        simpa using this
  · rw [takeWhile_all _ _ hq2b]

theorem captureOperation_ptr (p m : String) (hp : p ≠ "") (hm : m ≠ "") :
    captureOperation (ptrToString ["paths", p, m]) = some (escapeTok p, escapeTok m) := by
  have hqp : ∀ c ∈ (escapeTok p).data, (decide (¬c = '/')) = true := by
    intro c hc
    simpa using escapeTok_no_slash p c hc
  have hqm : ∀ c ∈ (escapeTok m).data, (decide (¬c = '/')) = true := by
    intro c hc
    simpa using escapeTok_no_slash m c hc
  have hdata : (ptrToString ["paths", p, m]).data =
      '/' :: 'p' :: 'a' :: 't' :: 'h' :: 's' :: '/' ::
        ((escapeTok p).data ++ '/' :: (escapeTok m).data) := by
    show '/' :: 'p' :: 'a' :: 't' :: 'h' :: 's' :: '/' ::
        ((escapeTok p).data ++ '/' :: ((escapeTok m).data ++ [])) = _
    rw [List.append_nil]
  have hstr : ptrToString ["paths", p, m] =
      ⟨'/' :: 'p' :: 'a' :: 't' :: 'h' :: 's' :: '/' ::
        ((escapeTok p).data ++ '/' :: (escapeTok m).data)⟩ :=
    congrArg String.mk hdata
  rw [hstr]
  exact captureOperation_shape (escapeTok p).data (escapeTok m).data
    (escapeTok_data_ne_nil p hp) (escapeTok_data_ne_nil m hm) hqp hqm

/-- C9: `name_operation` returns the PascalCase of the `operationId` at
the pointer when one is present; otherwise it concatenates the PascalCase
method with the PascalCase path name obtained from the escaped path
capture by splitting on `~1`, unwrapping each braced placeholder to the
bare parameter name, and capitalizing each segment's first character. -/
theorem c9_name_operation (doc : Json) (p m : String) (hp : p ≠ "") (hm : m ≠ "") :
    (∀ oid, lookupOperationId doc ["paths", p, m] = some oid →
      nameOperation doc ["paths", p, m] = some (toCasePascal oid)) ∧
    (lookupOperationId doc ["paths", p, m] = none →
      nameOperation doc ["paths", p, m] =
        some (toCasePascal (escapeTok m) ++
          toCasePascal ⟨((splitOnTilde1 (escapeTok p).data).map
            (fun seg => capFirst (unwrapBraces seg))).flatten⟩)) := by
  constructor
  · intro oid hoid
    unfold nameOperation
    rw [hoid]
  · intro hnone
    unfold nameOperation
    rw [hnone, captureOperation_ptr p m hp hm]
    rfl

/-- Witness for C9: a concrete document with an `operationId` takes the
first branch, and an operation absent from the document synthesizes
`GetPets` from the method and path captures. -/
theorem c9_name_operation_witness :
    (nameOperation opIdDoc ["paths", "/pets", "get"] = some (toCasePascal "findPets")) ∧
    (nameOperation Json.null ["paths", "/pets", "get"] =
      some (toCasePascal (escapeTok "get") ++
        toCasePascal ⟨((splitOnTilde1 (escapeTok "/pets").data).map
          (fun seg => capFirst (unwrapBraces seg))).flatten⟩)) :=
  ⟨(c9_name_operation opIdDoc "/pets" "get" (by decide) (by decide)).1 "findPets" rfl,
   (c9_name_operation Json.null "/pets" "get" (by decide) (by decide)).2 rfl⟩

theorem charsLt_trans :
    ∀ (a b c : List Char), charsLt a b = true → charsLt b c = true → charsLt a c = true := by
  intro a
  induction a with
  | nil =>
      intro b c hab hbc
      cases b with
      | nil => simp [charsLt] at hab
      | cons y ys =>
          cases c with
          | nil => simp [charsLt] at hbc
          | cons z zs => simp [charsLt]
  | cons x xs ih =>
      intro b c hab hbc
      cases b with
      | nil => simp [charsLt] at hab
      | cons y ys =>
          cases c with
          | nil => simp [charsLt] at hbc
          | cons z zs =>
              simp only [charsLt, Bool.or_eq_true, Bool.and_eq_true,
                decide_eq_true_eq] at hab hbc ⊢
              rcases hab with hxy | ⟨hxy, hxs⟩
              · rcases hbc with hyz | ⟨hyz, hys⟩
                · exact Or.inl (lt_trans hxy hyz)
                · exact Or.inl (hyz ▸ hxy)
              · rcases hbc with hyz | ⟨hyz, hys⟩
                · exact Or.inl (hxy ▸ hyz)
                · exact Or.inr ⟨hxy.trans hyz, ih ys zs hxs hys⟩

theorem charsLt_total :
    ∀ (a b : List Char), a ≠ b → charsLt a b = true ∨ charsLt b a = true := by
  intro a
  induction a with
  | nil =>
      intro b hne
      cases b with
      | nil => exact absurd rfl hne
      | cons y ys => exact Or.inl (by simp [charsLt])
  | cons x xs ih =>
      intro b hne
      cases b with
      | nil => exact Or.inr (by simp [charsLt])
      | cons y ys =>
          by_cases hxy : x = y
          · subst hxy
            have hys : xs ≠ ys := fun h => hne (by rw [h])
            rcases ih ys hys with h | h
            · exact Or.inl (by simp [charsLt, h])
            · exact Or.inr (by simp [charsLt, h])
          · rcases lt_or_gt_of_ne hxy with h | h
            · exact Or.inl (by simp [charsLt, h])
            · exact Or.inr (by simp [charsLt, h])

theorem strLt_trans (a b c : String) (hab : strLt a b = true) (hbc : strLt b c = true) :
    strLt a c = true :=
  charsLt_trans a.data b.data c.data hab hbc

theorem strLt_total (a b : String) (hne : a ≠ b) :
    strLt a b = true ∨ strLt b a = true := by
  have hdata : a.data ≠ b.data := by
    intro h
    apply hne
    cases a with
    | mk d1 =>
        cases b with
        | mk d2 =>
            simp only [String.data] at h
            rw [h]
  exact charsLt_total a.data b.data hdata

/-- Keys of an ordered-map association list are strictly increasing. -/
def SortedKeys {α : Type} (l : List (String × α)) : Prop :=
  l.Pairwise (fun a b => strLt a.1 b.1 = true)

theorem btreeInsert_mem {α : Type} (k : String) (v : α) :
    ∀ (l : List (String × α)) (x : String × α),
      x ∈ btreeInsert k v l → x = (k, v) ∨ x ∈ l := by
  intro l
  induction l with
  | nil =>
      intro x hx
      simp [btreeInsert] at hx
      exact Or.inl hx
  | cons p rest ih =>
      intro x hx
      obtain ⟨k2, v2⟩ := p
      simp only [btreeInsert] at hx
      by_cases h1 : strLt k k2 = true
      · rw [if_pos h1] at hx
        rcases List.mem_cons.mp hx with hx | hx
        · exact Or.inl hx
        · exact Or.inr hx
      · rw [if_neg h1] at hx
        by_cases h2 : k = k2
        · rw [if_pos h2] at hx
          rcases List.mem_cons.mp hx with hx | hx
          · exact Or.inl hx
          · exact Or.inr (List.mem_cons_of_mem _ hx)
        · rw [if_neg h2] at hx
          rcases List.mem_cons.mp hx with hx | hx
          · exact Or.inr (List.mem_cons.mpr (Or.inl hx))
          · rcases ih x hx with hx | hx
            · exact Or.inl hx
            · exact Or.inr (List.mem_cons_of_mem _ hx)

theorem sortedKeys_btreeInsert {α : Type} (k : String) (v : α) :
    ∀ (l : List (String × α)), SortedKeys l → SortedKeys (btreeInsert k v l) := by
  intro l
  induction l with
  | nil =>
      intro _
      simp [btreeInsert, SortedKeys]
  | cons p rest ih =>
      intro h
      obtain ⟨k2, v2⟩ := p
      rw [SortedKeys, List.pairwise_cons] at h
      obtain ⟨hk2, hrest⟩ := h
      simp only [btreeInsert]
      by_cases h1 : strLt k k2 = true
      · rw [if_pos h1]
        rw [SortedKeys, List.pairwise_cons]
        refine ⟨?_, List.pairwise_cons.mpr ⟨hk2, hrest⟩⟩
        intro x hx
        rcases List.mem_cons.mp hx with hx | hx
        · subst hx
          exact h1
        · exact strLt_trans _ _ _ h1 (hk2 x hx)
      · rw [if_neg h1]
        by_cases h2 : k = k2
        · rw [if_pos h2]
          rw [SortedKeys, List.pairwise_cons]
          exact ⟨fun x hx => h2 ▸ hk2 x hx, hrest⟩
        · rw [if_neg h2]
          rw [SortedKeys, List.pairwise_cons]
          refine ⟨?_, ih hrest⟩
          intro x hx
          rcases btreeInsert_mem k v rest x hx with hx | hx
          · subst hx
            rcases strLt_total k k2 h2 with h | h
            · exact absurd h h1
            · exact h
          · exact hk2 x hx

theorem sortedKeys_btreeOfList {α : Type} (l : List (String × α)) :
    SortedKeys (btreeOfList l) := by
  suffices h : ∀ (l : List (String × α)) (acc : List (String × α)), SortedKeys acc →
      SortedKeys (l.foldl (fun m kv => btreeInsert kv.1 kv.2 m) acc) by
    exact h l [] (by simp [SortedKeys])
  intro l
  induction l with
  | nil => intro acc hacc; exact hacc
  | cons kv rest ih =>
      intro acc hacc
      exact ih _ (sortedKeys_btreeInsert kv.1 kv.2 acc hacc)

theorem digit_char_lt_d (c : Char) (h : isDigitChar c = true) : c < 'd' := by
  simp only [isDigitChar, decide_eq_true_eq] at h
  rcases h with h | h | h | h | h | h | h | h | h | h <;> subst h <;> decide

theorem digits_strLt_default (s : String) (h1 : s ≠ "")
    (h2 : s.data.all isDigitChar = true) : strLt s "default" = true := by
  have hd : s.data ≠ [] := by
    intro h
    apply h1
    cases s with
    | mk d =>
        simp only [String.data] at h
        rw [h]
  cases hl : s.data with
  | nil => exact absurd hl hd
  | cons c rest =>
      have hc : isDigitChar c = true := by
        rw [hl] at h2
        exact (List.all_eq_true.mp h2 c (List.mem_cons_self _ _))
      have hlt : c < 'd' := digit_char_lt_d c hc
      show charsLt s.data ('d' :: "efault".data) = true
      rw [hl]
      simp [charsLt, hlt]

/-- C10: the responses mapping is collected into an ordered map keyed by
the status-code string, so its entries are strictly sorted in
lexicographic string order; `default` sorts after every nonempty all-digit
status code; and both the types writer's envelope variants and the client
writer's status match arms are emitted in exactly that map order. -/
theorem c10_responses_ordering :
    (∀ (collected : List CollectedSchema) (opPtr : Ptr)
        (entries : List (String × ObjOrRef ResponseM)) (rs : List (String × Option String)),
        mkResponses collected opPtr entries = some rs →
        rs.Pairwise (fun a b => strLt a.1 b.1 = true)) ∧
    (∀ st : String, st ≠ "" → st.data.all isDigitChar = true → strLt st "default" = true) ∧
    (∀ (o : OperationDef) (nm : String) (vs : List (String × Option String)),
        envelopeEnum o = some (nm, vs) → nm = o.response ∧ vs = o.responses) ∧
    (∀ (o : OperationDef) (arms : List MatchArm), clientMatchArms o = some arms →
        List.Forall₂ (fun (sv : String × Option String) a =>
          writeAwcResponseHandler o sv.1 sv.2 = some a)
          o.responses (arms.take o.responses.length)) := by
  refine ⟨?_, digits_strLt_default, ?_, ?_⟩
  · intro collected opPtr entries rs h
    unfold mkResponses at h
    cases hm : mapMO (fun sr => responseEntry collected opPtr sr.1 sr.2) entries with
    | none => rw [hm] at h; simp at h
    | some es =>
        rw [hm] at h
        simp only [Option.map_some', Option.some.injEq] at h
        subst h
        exact sortedKeys_btreeOfList es
  · intro o nm vs h
    unfold envelopeEnum at h
    by_cases hl : o.responses.length > 1
    · rw [if_pos hl] at h
      simp only [Option.some.injEq, Prod.mk.injEq] at h
      exact ⟨h.1.symm, h.2.symm⟩
    · rw [if_neg hl] at h
      exact Option.noConfusion h
  · intro o arms h
    unfold clientMatchArms at h
    cases hm : mapMO (fun sr => writeAwcResponseHandler o sr.1 sr.2) o.responses with
    | none => rw [hm] at h; simp at h
    | some handlers =>
        rw [hm] at h
        simp only [Option.map_some', Option.some.injEq] at h
        subst h
        have hf2 := mapMO_forall2 (fun sr => writeAwcResponseHandler o sr.1 sr.2)
          o.responses handlers hm
        have hlen := List.Forall₂.length_eq hf2
        rw [hlen, List.take_left]
        exact hf2

/-- Witness for C10 at concrete inputs: entries given out of order are
returned sorted, a digit status sorts before `default`, and the envelope
and match-arm sequences of `opWithDefault` follow the map order. -/
theorem c10_responses_ordering_witness :
    ([("200", (none : Option String)), ("default", none)].Pairwise
        (fun a b => strLt a.1 b.1 = true)) ∧
    (strLt "200" "default" = true) ∧
    ("FindPetsResponse" = opWithDefault.response ∧
      [("200", some "Pet"), ("default", some "Error")] = opWithDefault.responses) ∧
    (List.Forall₂ (fun (sv : String × Option String) a =>
        writeAwcResponseHandler opWithDefault sv.1 sv.2 = some a)
      opWithDefault.responses (armsWithDefault.take opWithDefault.responses.length)) :=
  ⟨c10_responses_ordering.1 [] ["paths", "/pets", "get"]
      [("default", .obj ⟨[]⟩), ("200", .obj ⟨[]⟩)] [("200", none), ("default", none)] rfl,
   c10_responses_ordering.2.1 "200" (by decide) (by decide),
   c10_responses_ordering.2.2.1 opWithDefault "FindPetsResponse"
      [("200", some "Pet"), ("default", some "Error")] rfl,
   c10_responses_ordering.2.2.2 opWithDefault armsWithDefault (by decide)⟩

/-- C7 (code bug): a `$ref` response whose target is not a collected schema
is silently recorded as a bodyless response entry, while the analogous
`$ref` request body and `$ref` type-name resolution abort (panic, embedded
as `none`). -/
theorem c7_ref_response_not_fatal :
    (responseEntry [] ["paths", "/x", "get"] "404"
        (.ref ["components", "responses", "Missing"]) = some ("404", none)) ∧
    (requestBodyName [] ["paths", "/x", "get"]
        (some (.ref ["components", "responses", "Missing"])) = none) ∧
    (analysisNameType [] ["components", "schemas", "Y"]
        (.ref ["components", "responses", "Missing"]) = none) := by
  refine ⟨by decide, by decide, by decide⟩

/-- Appending a singleton on the right is injective in both components. -/
theorem append_singleton_inj {α : Type} (l1 l2 : List α) (a b : α)
    (h : l1 ++ [a] = l2 ++ [b]) : l1 = l2 ∧ a = b := by
  have h2 := congrArg List.reverse h
  simp only [List.reverse_append, List.reverse_cons, List.reverse_nil,
    List.nil_append, List.singleton_append, List.cons.injEq] at h2
  obtain ⟨hab, hrev⟩ := h2
  refine ⟨?_, hab⟩
  have h3 := congrArg List.reverse hrev
  simpa using h3

/-- Of two decompositions of one list into prefix and suffix, one prefix
extends the other. -/
theorem append_comparable {α : Type} :
    ∀ (s1 s2 r1 r2 : List α), s1 ++ r1 = s2 ++ r2 →
      (∃ t, s1 ++ t = s2) ∨ (∃ t, s2 ++ t = s1) := by
  intro s1
  induction s1 with
  | nil => intro s2 r1 r2 _; exact Or.inl ⟨s2, rfl⟩
  | cons a as ih =>
      intro s2 r1 r2 h
      cases s2 with
      | nil => exact Or.inr ⟨a :: as, rfl⟩
      | cons b bs =>
          simp only [List.cons_append, List.cons.injEq] at h
          obtain ⟨hab, h⟩ := h
          rcases ih bs r1 r2 h with ⟨t, ht⟩ | ⟨t, ht⟩
          · exact Or.inl ⟨t, by simp [List.cons_append, hab, ht]⟩
          · exact Or.inr ⟨t, by simp [List.cons_append, hab.symm, ht]⟩

/-- The accumulator of the digit writer is just appended to the digits. -/
theorem natDigitsGo_append :
    ∀ (fuel n : Nat) (acc : List Char), n < fuel →
      natDigitsGo fuel n acc = natDigitsGo fuel n [] ++ acc := by
  intro fuel
  induction fuel with
  | zero => intro n acc h; exact absurd h (Nat.not_lt_zero n)
  | succ f ih =>
      intro n acc h
      by_cases h10 : n < 10
      · simp [natDigitsGo, h10]
      · have h1 : n / 10 < n := Nat.div_lt_self (by omega) (by omega)
        have hdiv : n / 10 < f := by omega
        simp only [natDigitsGo, if_neg h10]
        rw [ih (n / 10) (natDigitChar (n % 10) :: acc) hdiv,
          ih (n / 10) [natDigitChar (n % 10)] hdiv]
        simp

/-- The digit character of a digit decodes back to the digit. -/
theorem digitVal_natDigitChar (d : Nat) (h : d < 10) :
    digitVal (natDigitChar d) = d := by
  interval_cases d <;> rfl

/-- Decoding a digit string with one more digit at the end. -/
theorem digitsVal_concat (l : List Char) (c : Char) :
    digitsVal (l ++ [c]) = 10 * digitsVal l + digitVal c := by
  simp [digitsVal, List.foldl_append]

/-- The digit writer is inverted by the digit-string decoder. -/
theorem digitsVal_natDigitsGo :
    ∀ (fuel n : Nat), n < fuel → digitsVal (natDigitsGo fuel n []) = n := by
  intro fuel
  induction fuel with
  | zero => intro n h; exact absurd h (Nat.not_lt_zero n)
  | succ f ih =>
      intro n h
      by_cases h10 : n < 10
      · simp only [natDigitsGo, if_pos h10]
        show digitsVal [natDigitChar n] = n
        simp [digitsVal, digitVal_natDigitChar n h10]
      · have h1 : n / 10 < n := Nat.div_lt_self (by omega) (by omega)
        have hdiv : n / 10 < f := by omega
        simp only [natDigitsGo, if_neg h10]
        rw [natDigitsGo_append f (n / 10) [natDigitChar (n % 10)] hdiv,
          digitsVal_concat, ih (n / 10) hdiv,
          digitVal_natDigitChar (n % 10) (Nat.mod_lt n (by omega))]
        omega

/-- Decimal rendering of naturals is injective. -/
theorem natToString_inj (m n : Nat) (h : natToString m = natToString n) :
    m = n := by
  have hd : natDigitsGo (m + 1) m [] = natDigitsGo (n + 1) n [] :=
    congrArg String.data h
  have h1 := digitsVal_natDigitsGo (m + 1) m (Nat.lt_succ_self m)
  have h2 := digitsVal_natDigitsGo (n + 1) n (Nat.lt_succ_self n)
  rw [← h1, ← h2, hd]

/-- A successful chunk split recovers the input by flattening. -/
theorem chunkSplit_flatten_aux :
    ∀ (k : Nat) (r : List String), r.length ≤ k →
      ∀ cs, chunkSplit r = some cs → r = cs.flatten := by
  intro k
  induction k with
  | zero =>
      intro r hr cs h
      have hnil : r = [] := List.eq_nil_of_length_eq_zero (Nat.le_zero.mp hr)
      subst hnil
      simp only [chunkSplit, Option.some.injEq] at h
      subst h; rfl
  | succ k ih =>
      intro r hr cs h
      cases r with
      | nil =>
          simp only [chunkSplit, Option.some.injEq] at h
          subst h; rfl
      | cons t rest =>
          unfold chunkSplit at h
          by_cases hit : t = "items"
          · rw [if_pos hit] at h
            obtain ⟨cs0, h0, hcs⟩ := Option.map_eq_some'.mp h
            subst hcs
            subst hit
            have hflat := ih rest (by simp at hr; omega) cs0 h0
            simp [hflat]
          · rw [if_neg hit] at h
            by_cases hk : chunkKey t
            · rw [if_pos hk] at h
              cases rest with
              | nil => exact absurd h (by simp)
              | cons n rest2 =>
                  obtain ⟨cs0, h0, hcs⟩ := Option.map_eq_some'.mp h
                  subst hcs
                  have hflat := ih rest2 (by simp at hr; omega) cs0 h0
                  simp [hflat]
            · rw [if_neg hk] at h
              exact absurd h (by simp)

/-- A successful chunk split recovers the input by flattening. -/
theorem chunkSplit_flatten (r : List String) (cs : List (List String))
    (h : chunkSplit r = some cs) : r = cs.flatten :=
  chunkSplit_flatten_aux r.length r le_rfl cs h

/-- A single chunk splits as itself. -/
theorem chunkSplit_chunk (c : List String) (hc : IsChunk c) :
    chunkSplit c = some [c] := by
  rcases hc with ⟨n, rfl⟩ | ⟨i, rfl⟩ | ⟨i, rfl⟩ | ⟨i, rfl⟩ | rfl <;>
    simp [chunkSplit, chunkKey]

/-- Chunk splitting extends across an appended chunk. -/
theorem chunkSplit_snoc_aux :
    ∀ (k : Nat) (r : List String), r.length ≤ k →
      ∀ cs c, chunkSplit r = some cs → IsChunk c →
        chunkSplit (r ++ c) = some (cs ++ [c]) := by
  intro k
  induction k with
  | zero =>
      intro r hr cs c h hc
      have hnil : r = [] := List.eq_nil_of_length_eq_zero (Nat.le_zero.mp hr)
      subst hnil
      simp only [chunkSplit, Option.some.injEq] at h
      subst h
      simpa using chunkSplit_chunk c hc
  | succ k ih =>
      intro r hr cs c h hc
      cases r with
      | nil =>
          simp only [chunkSplit, Option.some.injEq] at h
          subst h
          simpa using chunkSplit_chunk c hc
      | cons t rest =>
          unfold chunkSplit at h
          rw [List.cons_append]
          unfold chunkSplit
          by_cases hit : t = "items"
          · rw [if_pos hit] at h ⊢
            obtain ⟨cs0, h0, hcs⟩ := Option.map_eq_some'.mp h
            subst hcs
            rw [ih rest (by simp at hr; omega) cs0 c h0 hc]
            rfl
          · rw [if_neg hit] at h ⊢
            by_cases hk : chunkKey t
            · rw [if_pos hk] at h ⊢
              cases rest with
              | nil => exact absurd h (by simp)
              | cons n rest2 =>
                  obtain ⟨cs0, h0, hcs⟩ := Option.map_eq_some'.mp h
                  subst hcs
                  show (chunkSplit (rest2 ++ c)).map _ = _
                  rw [ih rest2 (by simp at hr; omega) cs0 c h0 hc]
                  rfl
            · rw [if_neg hk] at h
              exact absurd h (by simp)

/-- Chunk splitting extends across an appended chunk. -/
theorem chunkSplit_snoc (r : List String) (cs : List (List String))
    (c : List String) (h : chunkSplit r = some cs) (hc : IsChunk c) :
    chunkSplit (r ++ c) = some (cs ++ [c]) :=
  chunkSplit_snoc_aux r.length r le_rfl cs c h hc

/-- Chunks are nonempty. -/
theorem chunk_ne_nil (c : List String) (hc : IsChunk c) : c ≠ [] := by
  rcases hc with ⟨n, rfl⟩ | ⟨i, rfl⟩ | ⟨i, rfl⟩ | ⟨i, rfl⟩ | rfl <;> simp

/-- Extending a decomposition by one chunk. -/
theorem decomp_extend {S : List Ptr} {q s : Ptr} {cs : List (List String)}
    {c : List String} (hd : Decomp S q s cs) (hc : IsChunk c) :
    Decomp S (q ++ c) s (cs ++ [c]) := by
  obtain ⟨hm, r, hq, hcs⟩ := hd
  exact ⟨hm, r ++ c, by rw [hq, List.append_assoc], chunkSplit_snoc r cs c hcs hc⟩

/-- A decomposed pointer is its seed followed by the flattened chunks. -/
theorem decomp_flat {S : List Ptr} {p s : Ptr} {cs : List (List String)}
    (hd : Decomp S p s cs) : p = s ++ cs.flatten := by
  obtain ⟨_, r, hp, hcs⟩ := hd
  rw [hp, chunkSplit_flatten r cs hcs]

/-- Over a prefix-free seed list, decompositions are unique. -/
theorem decomp_unique {S : List Ptr} (hpf : PrefixFree S) {p s1 s2 : Ptr}
    {cs1 cs2 : List (List String)} (h1 : Decomp S p s1 cs1)
    (h2 : Decomp S p s2 cs2) : s1 = s2 ∧ cs1 = cs2 := by
  obtain ⟨hm1, r1, hp1, hc1⟩ := h1
  obtain ⟨hm2, r2, hp2, hc2⟩ := h2
  have heq : s1 ++ r1 = s2 ++ r2 := hp1.symm.trans hp2
  have hs : s1 = s2 := by
    rcases append_comparable s1 s2 r1 r2 heq with h | h
    · exact hpf s1 hm1 s2 hm2 h
    · exact (hpf s2 hm2 s1 hm1 h).symm
  subst hs
  have hr : r1 = r2 := List.append_cancel_left heq
  subst hr
  rw [hc1] at hc2
  exact ⟨rfl, Option.some.inj hc2⟩

/-- A list with no last element is empty. -/
theorem popLast_eq_none {α : Type} :
    ∀ (l : List α), popLast l = none → l = [] := by
  intro l
  induction l with
  | nil => intro _; rfl
  | cons a rest ih =>
      intro h
      cases rest with
      | nil => simp [popLast] at h
      | cons b tl =>
          simp only [popLast, Option.map_eq_none'] at h
          exact absurd (ih h) (by simp)

/-- Popping the last element decomposes the list. -/
theorem popLast_eq_some {α : Type} :
    ∀ (l rest : List α) (a : α), popLast l = some (rest, a) → l = rest ++ [a] := by
  intro l
  induction l with
  | nil => intro rest a h; simp [popLast] at h
  | cons x tl ih =>
      intro rest a h
      cases tl with
      | nil =>
          simp only [popLast, Option.some.injEq, Prod.mk.injEq] at h
          obtain ⟨h1, h2⟩ := h
          rw [← h1, ← h2]
          rfl
      | cons y tl2 =>
          simp only [popLast] at h
          obtain ⟨⟨la, b⟩, h0, hmap⟩ := Option.map_eq_some'.mp h
          obtain ⟨h1, h2⟩ := Prod.mk.injEq .. |>.mp hmap
          rw [← h1, ← h2]
          have := ih la b h0
          rw [this]
          rfl

/-- A filterMap over a list with distinct keys, whose results determine
the source key, has distinct results. -/
theorem nodup_filterMap_key {α β κ : Type} (f : α → Option β) (key : α → κ)
    (keyOf : β → κ) :
    ∀ l : List α, (l.map key).Nodup →
      (∀ a ∈ l, ∀ p, f a = some p → keyOf p = key a) → (l.filterMap f).Nodup := by
  intro l
  induction l with
  | nil => intro _ _; simp
  | cons a rest ih =>
      intro hk hf
      simp only [List.map_cons, List.nodup_cons] at hk
      obtain ⟨hka, hkr⟩ := hk
      have hstep := fun b hb p hp => hf b (List.mem_cons_of_mem a hb) p hp
      cases hfa : f a with
      | none => simp only [List.filterMap_cons, hfa]; exact ih hkr hstep
      | some p =>
          simp only [List.filterMap_cons, hfa, List.nodup_cons]
          refine ⟨?_, ih hkr hstep⟩
          intro hmem
          obtain ⟨b, hb, hfb⟩ := List.mem_filterMap.mp hmem
          have h1 : keyOf p = key b := hf b (List.mem_cons_of_mem a hb) p hfb
          have h2 : keyOf p = key a := hf a (List.mem_cons_self a rest) p hfa
          have hab : key a = key b := h2.symm.trans h1
          exact hka (by rw [hab]; exact List.mem_map_of_mem key hb)

/-- A flatMap over a list with distinct keys, whose inner lists are
duplicate-free and whose elements determine the source key, is
duplicate-free. -/
theorem nodup_flatMap_key {α β κ : Type} (f : α → List β) (key : α → κ)
    (keyOf : β → κ) :
    ∀ l : List α, (l.map key).Nodup → (∀ a ∈ l, (f a).Nodup) →
      (∀ a ∈ l, ∀ p ∈ f a, keyOf p = key a) → (l.flatMap f).Nodup := by
  intro l
  induction l with
  | nil => intro _ _ _; simp
  | cons a rest ih =>
      intro hk hn hf
      simp only [List.map_cons, List.nodup_cons] at hk
      obtain ⟨hka, hkr⟩ := hk
      rw [List.flatMap_cons, List.nodup_append]
      refine ⟨hn a (List.mem_cons_self a rest),
        ih hkr (fun b hb => hn b (List.mem_cons_of_mem a hb))
          (fun b hb p hp => hf b (List.mem_cons_of_mem a hb) p hp), ?_⟩
      intro p hpa hpr
      obtain ⟨b, hb, hpb⟩ := List.mem_flatMap.mp hpr
      have h1 : keyOf p = key a := hf a (List.mem_cons_self a rest) p hpa
      have h2 : keyOf p = key b := hf b (List.mem_cons_of_mem a hb) p hpb
      have hab : key a = key b := h1.symm.trans h2
      exact hka (by rw [hab]; exact List.mem_map_of_mem key hb)

/-- Every branch pointer pushed for a composite extends the popped pointer
by one chunk. -/
theorem mem_branchPushes {q : Ptr} {sc : Schema} {x : Ptr}
    (h : x ∈ branchPushes q sc) : ∃ c, IsChunk c ∧ x = q ++ c := by
  simp only [branchPushes, List.mem_append, List.mem_map, List.mem_range] at h
  rcases h with (⟨i, _, rfl⟩ | ⟨i, _, rfl⟩) | ⟨i, _, rfl⟩
  · exact ⟨["anyOf", natToString i], Or.inr (Or.inl ⟨_, rfl⟩), rfl⟩
  · exact ⟨["allOf", natToString i], Or.inr (Or.inr (Or.inl ⟨_, rfl⟩)), rfl⟩
  · exact ⟨["oneOf", natToString i], Or.inr (Or.inr (Or.inr (Or.inl ⟨_, rfl⟩))), rfl⟩

/-- Pushed branch pointers with a fixed middle token are injective in the
index. -/
theorem push_tok_inj (q : Ptr) (tok : String) :
    Function.Injective (fun i : Nat => q ++ [tok, natToString i]) := by
  intro i j h
  simp only at h
  have h2 := List.append_cancel_left h
  have h3 : natToString i = natToString j := by simpa using h2
  exact natToString_inj i j h3

/-- Pushed branch pointers with different middle tokens are disjoint. -/
theorem push_tok_disjoint {q : Ptr} {t1 t2 : String} (hne : t1 ≠ t2)
    {n1 n2 : Nat} :
    List.Disjoint ((List.range n1).map (fun i => q ++ [t1, natToString i]))
      ((List.range n2).map (fun i => q ++ [t2, natToString i])) := by
  intro x h1 h2
  simp only [List.mem_map, List.mem_range] at h1 h2
  obtain ⟨i, _, rfl⟩ := h1
  obtain ⟨j, _, hj⟩ := h2
  have h3 := List.append_cancel_left hj
  have h4 : t2 = t1 ∧ natToString j = natToString i := by simpa using h3
  exact hne h4.1.symm

/-- The branch pointers pushed for a composite are pairwise distinct. -/
theorem nodup_branchPushes (q : Ptr) (sc : Schema) :
    (branchPushes q sc).Nodup := by
  unfold branchPushes
  rw [List.nodup_append, List.nodup_append]
  refine ⟨⟨(List.nodup_range _).map (push_tok_inj q "anyOf"),
    (List.nodup_range _).map (push_tok_inj q "allOf"),
    push_tok_disjoint (by decide)⟩,
    (List.nodup_range _).map (push_tok_inj q "oneOf"), ?_⟩
  intro x hx1 hx2
  rcases List.mem_append.mp hx1 with hx | hx
  · exact @push_tok_disjoint q "anyOf" "oneOf" (by decide) _ _ x hx hx2
  · exact @push_tok_disjoint q "allOf" "oneOf" (by decide) _ _ x hx hx2

/-- Every property pointer pushed for an object extends the popped pointer
by one chunk. -/
theorem mem_propPushes {q : Ptr} {sc : Schema} {x : Ptr}
    (h : x ∈ propPushes q sc) : ∃ c, IsChunk c ∧ x = q ++ c := by
  simp only [propPushes, List.mem_filterMap] at h
  obtain ⟨nv, _, hnv⟩ := h
  cases hv : nv.2 with
  | obj s =>
      rw [hv] at hnv
      exact ⟨["properties", nv.1], Or.inl ⟨_, rfl⟩, (Option.some.inj hnv).symm⟩
  | ref r =>
      rw [hv] at hnv
      exact absurd hnv (by simp)

/-- The last element of a pointer extended by a two-token chunk. -/
theorem getLast_append_pair {q : Ptr} {a n : String} :
    (q ++ [a, n]).getLast? = some n := by
  have h : q ++ [a, n] = (q ++ [a]) ++ [n] := by simp
  rw [h, List.getLast?_concat]

/-- The property pointers pushed for an object schema with distinct
property names are pairwise distinct. -/
theorem nodup_propPushes (q : Ptr) (sc : Schema)
    (hnames : (sc.properties.map Prod.fst).Nodup) : (propPushes q sc).Nodup := by
  apply nodup_filterMap_key _ (fun nv => some nv.1) (fun p => p.getLast?)
  · have h1 : sc.properties.map (fun nv => some nv.1) =
        (sc.properties.map Prod.fst).map some := by
      rw [List.map_map]; rfl
    rw [h1]
    exact hnames.map (Option.some_injective String)
  · intro nv _ p hp
    cases hv : nv.2 with
    | obj s =>
        rw [hv] at hp
        rw [← Option.some.inj hp]
        exact getLast_append_pair
    | ref r =>
        rw [hv] at hp
        exact absurd hp (by simp)

/-- Every items pointer pushed for an array extends the popped pointer by
one chunk. -/
theorem mem_itemsPushes {q : Ptr} {sc : Schema} {x : Ptr}
    (h : x ∈ itemsPushes q sc) : ∃ c, IsChunk c ∧ x = q ++ c := by
  unfold itemsPushes at h
  cases hi : sc.items with
  | none => rw [hi] at h; simp at h
  | some o =>
      rw [hi] at h
      cases o with
      | obj s =>
          simp at h
          exact ⟨["items"], Or.inr (Or.inr (Or.inr (Or.inr rfl))), h⟩
      | ref r => simp at h

/-- The items pointers pushed for an array are pairwise distinct. -/
theorem nodup_itemsPushes (q : Ptr) (sc : Schema) : (itemsPushes q sc).Nodup := by
  unfold itemsPushes
  cases sc.items with
  | none => simp
  | some o => cases o <;> simp

/-- Fields of a well-formed object hold well-formed values. -/
theorem wf_getField :
    ∀ (fs : List (String × Json)) (t : String) (v : Json),
      jsonFieldsWf fs = true → getField fs t = some v → Json.wf v = true := by
  intro fs
  induction fs with
  | nil => intro t v _ h; simp [getField] at h
  | cons kv rest ih =>
      intro t v hw h
      obtain ⟨k, u⟩ := kv
      rw [jsonFieldsWf, Bool.and_eq_true] at hw
      rw [getField] at h
      by_cases hk : k = t
      · rw [if_pos hk] at h
        rw [← Option.some.inj h]
        exact hw.1
      · rw [if_neg hk] at h
        exact ih t v hw.2 h

/-- Elements of a well-formed array are well-formed values. -/
theorem wf_elem :
    ∀ (xs : List Json) (i : Nat) (v : Json),
      jsonElemsWf xs = true → xs.get? i = some v → Json.wf v = true := by
  intro xs
  induction xs with
  | nil => intro i v _ h; simp at h
  | cons x rest ih =>
      intro i v hw h
      rw [jsonElemsWf, Bool.and_eq_true] at hw
      cases i with
      | zero =>
          simp only [List.get?] at h
          rw [← Option.some.inj h]
          exact hw.1
      | succ j =>
          simp only [List.get?] at h
          exact ih j v hw.2 h

/-- Pointer resolution preserves well-formedness. -/
theorem wf_resolve :
    ∀ (p : Ptr) (j v : Json), Json.wf j = true → Json.resolve j p = some v →
      Json.wf v = true := by
  intro p
  induction p with
  | nil =>
      intro j v hw h
      rw [Json.resolve] at h
      rw [← Option.some.inj h]
      exact hw
  | cons t rest ih =>
      intro j v hw h
      cases j with
      | obj fs =>
          simp only [Json.resolve] at h
          obtain ⟨u, hu, hres⟩ := Option.bind_eq_some.mp h
          have hwfs : jsonFieldsWf fs = true := by
            rw [Json.wf, Bool.and_eq_true] at hw
            exact hw.2
          exact ih u v (wf_getField fs t u hwfs hu) hres
      | arr xs =>
          simp only [Json.resolve] at h
          obtain ⟨i, _, h2⟩ := Option.bind_eq_some.mp h
          obtain ⟨u, hu, hres⟩ := Option.bind_eq_some.mp h2
          have hwxs : jsonElemsWf xs = true := by rw [Json.wf] at hw; exact hw
          exact ih u v (wf_elem xs i u hwxs hu) hres
      | null => simp [Json.resolve] at h
      | bool b => simp [Json.resolve] at h
      | num n => simp [Json.resolve] at h
      | str s => simp [Json.resolve] at h

/-- Decoded property lists keep the JSON field names. -/
theorem propsOfJsonF_names :
    ∀ (pf : List (String × Json)) (fuel : Nat)
      (props : List (String × ObjOrRef Schema)),
      propsOfJsonF fuel pf = some props →
      props.map Prod.fst = pf.map Prod.fst := by
  intro pf
  induction pf with
  | nil =>
      intro fuel props h
      cases fuel with
      | zero => simp [propsOfJsonF] at h
      | succ f =>
          simp only [propsOfJsonF, Option.some.injEq] at h
          rw [← h]
          rfl
  | cons kv rest ih =>
      intro fuel props h
      obtain ⟨k, v⟩ := kv
      cases fuel with
      | zero => simp [propsOfJsonF] at h
      | succ f =>
          simp only [propsOfJsonF] at h
          obtain ⟨sc, _, h2⟩ := Option.bind_eq_some.mp h
          obtain ⟨tl, htl, hcons⟩ := Option.map_eq_some'.mp h2
          rw [← hcons]
          simp [ih f tl htl]

/-- Inversion of the schema decoder on the `properties` field. -/
theorem schemaFromFieldsF_props (fuel : Nat) (fs : List (String × Json))
    (sc : Schema) (h : schemaFromFieldsF fuel fs = some sc) :
    (getField fs "properties" = none ∧ sc.properties = []) ∨
    (∃ pf, getField fs "properties" = some (.obj pf) ∧
      propsOfJsonF (fuel - 1) pf = some sc.properties) := by
  cases fuel with
  | zero => simp [schemaFromFieldsF] at h
  | succ f =>
      simp only [schemaFromFieldsF] at h
      obtain ⟨st, _, h⟩ := Option.bind_eq_some.mp h
      obtain ⟨fmt, _, h⟩ := Option.bind_eq_some.mp h
      obtain ⟨nb, _, h⟩ := Option.bind_eq_some.mp h
      obtain ⟨req, _, h⟩ := Option.bind_eq_some.mp h
      obtain ⟨props, hprops, h⟩ := Option.bind_eq_some.mp h
      obtain ⟨its, _, h⟩ := Option.bind_eq_some.mp h
      obtain ⟨ao, _, h⟩ := Option.bind_eq_some.mp h
      obtain ⟨bo, _, h⟩ := Option.bind_eq_some.mp h
      obtain ⟨oo, _, h⟩ := Option.bind_eq_some.mp h
      have hsc : sc = .mk st fmt nb req props its ao bo oo :=
        (Option.some.inj h).symm
      subst hsc
      cases hp : getField fs "properties" with
      | none =>
          rw [hp] at hprops
          exact Or.inl ⟨rfl, (Option.some.inj hprops).symm⟩
      | some pv =>
          rw [hp] at hprops
          cases pv with
          | obj pf => exact Or.inr ⟨pf, rfl, by simpa using hprops⟩
          | null => exact absurd hprops (by simp)
          | bool b => exact absurd hprops (by simp)
          | num n => exact absurd hprops (by simp)
          | str s => exact absurd hprops (by simp)
          | arr xs => exact absurd hprops (by simp)

/-- A schema decoded from a well-formed JSON value has pairwise distinct
property names. -/
theorem parsed_props_nodup (v : Json) (sc : Schema)
    (hwf : Json.wf v = true) (h : objOrRefOfJson v = some (.obj sc)) :
    (sc.properties.map Prod.fst).Nodup := by
  unfold objOrRefOfJson at h
  cases hsz : jsonSize v with
  | zero => rw [hsz] at h; simp [objOrRefOfJsonF] at h
  | succ fz =>
      rw [hsz] at h
      cases v with
      | obj fs =>
          simp only [objOrRefOfJsonF] at h
          cases href : getField fs "$ref" with
          | some rv =>
              rw [href] at h
              cases rv with
              | str s =>
                  obtain ⟨a, _, hcontra⟩ := Option.map_eq_some'.mp h
                  exact absurd hcontra (by simp)
              | null => simp at h
              | bool b => simp at h
              | num n => simp at h
              | arr xs => simp at h
              | obj fs2 => simp at h
          | none =>
              rw [href] at h
              obtain ⟨sc0, hsc0, hobj⟩ := Option.map_eq_some'.mp h
              have hsc : sc0 = sc := by injection hobj
              subst hsc
              rcases schemaFromFieldsF_props fz fs sc0 hsc0 with
                ⟨_, hnil⟩ | ⟨pf, hpf, hpp⟩
              · rw [hnil]; simp
              · have hnames := propsOfJsonF_names pf (fz - 1) sc0.properties hpp
                rw [hnames]
                have hfw : jsonFieldsWf fs = true := by
                  rw [Json.wf, Bool.and_eq_true] at hwf
                  exact hwf.2
                have hwpf : Json.wf (.obj pf) = true :=
                  wf_getField fs "properties" (.obj pf) hfw hpf
                rw [Json.wf, Bool.and_eq_true, decide_eq_true_eq] at hwpf
                exact hwpf.1
      | null => simp [objOrRefOfJsonF] at h
      | bool b => simp [objOrRefOfJsonF] at h
      | num n => simp [objOrRefOfJsonF] at h
      | str s => simp [objOrRefOfJsonF] at h
      | arr xs => simp [objOrRefOfJsonF] at h

/-- Unfolding of one worklist iteration once the popped pointer is known. -/
theorem collectLoop_step (doc : Json) (f : Nat) (pending rest : List Ptr)
    (q : Ptr) (acc : List CollectedSchema)
    (hpop : popLast pending = some (rest, q)) :
    collectLoop doc (f + 1) pending acc =
      match Json.resolve doc q with
      | none => none
      | some v =>
          match objOrRefOfJson v with
          | none => none
          | some (.ref _) => collectLoop doc f rest acc
          | some (.obj sc) =>
              if sc.isComposite then
                match nameType doc q with
                | none => none
                | some nm =>
                    collectLoop doc f (rest ++ branchPushes q sc)
                      (acc ++ [⟨q, nm, sc⟩])
              else if sc.schema_type = some .object then
                match nameType doc q with
                | none => none
                | some nm =>
                    collectLoop doc f (rest ++ propPushes q sc)
                      (acc ++ [⟨q, nm, sc⟩])
              else if sc.schema_type = some .array then
                collectLoop doc f (rest ++ itemsPushes q sc) acc
              else collectLoop doc f rest acc := by
  conv_lhs => rw [collectLoop]
  rw [hpop]

/-- One worklist step preserves the loop invariants: the popped pointer
moves to the finished list and the pushed children are fresh, decomposable
extensions whose parent is the popped pointer. -/
theorem inv_step {S : List Ptr} (hpf : PrefixFree S) {done rest : List Ptr}
    {q : Ptr} (P : List Ptr)
    (hnd : (done ++ (rest ++ [q])).Nodup)
    (hvalid : ∀ p ∈ done ++ (rest ++ [q]), ∃ s cs, Decomp S p s cs)
    (hparent : ∀ p ∈ done ++ (rest ++ [q]), ∀ s cs c,
      Decomp S p s (cs ++ [c]) → s ++ cs.flatten ∈ done)
    (hPchunk : ∀ x ∈ P, ∃ c, IsChunk c ∧ x = q ++ c)
    (hPnodup : P.Nodup) :
    ((done ++ [q]) ++ (rest ++ P)).Nodup ∧
    (∀ p ∈ (done ++ [q]) ++ (rest ++ P), ∃ s cs, Decomp S p s cs) ∧
    (∀ p ∈ (done ++ [q]) ++ (rest ++ P), ∀ s cs c,
      Decomp S p s (cs ++ [c]) → s ++ cs.flatten ∈ done ++ [q]) := by
  have hq : q ∈ done ++ (rest ++ [q]) := by simp
  obtain ⟨sq, csq, hdq⟩ := hvalid q hq
  have hqflat : q = sq ++ csq.flatten := decomp_flat hdq
  have hqdone : q ∉ done := by
    intro hqd
    exact List.disjoint_of_nodup_append hnd hqd (by simp)
  have hfresh : ∀ x ∈ done ++ rest, ∀ c, IsChunk c → x ≠ q ++ c := by
    intro x hx c hc hxe
    subst hxe
    have hxmem : q ++ c ∈ done ++ (rest ++ [q]) := by
      rcases List.mem_append.mp hx with h | h
      · exact List.mem_append.mpr (Or.inl h)
      · exact List.mem_append.mpr (Or.inr (List.mem_append.mpr (Or.inl h)))
    have hdx : Decomp S (q ++ c) sq (csq ++ [c]) := decomp_extend hdq hc
    have hqd := hparent (q ++ c) hxmem sq csq c hdx
    rw [← hqflat] at hqd
    exact hqdone hqd
  have hqfresh : ∀ c, IsChunk c → q ≠ q ++ c := by
    intro c hc he
    have hlen := congrArg List.length he
    simp only [List.length_append, Nat.self_eq_add_right] at hlen
    exact chunk_ne_nil c hc (List.eq_nil_of_length_eq_zero hlen)
  have hPdisj : ∀ x ∈ (done ++ [q]) ++ rest, x ∉ P := by
    intro x hx hxP
    obtain ⟨c, hc, hxe⟩ := hPchunk x hxP
    rcases List.mem_append.mp hx with h | hrest
    · rcases List.mem_append.mp h with hdone | hqq
      · exact hfresh x (List.mem_append.mpr (Or.inl hdone)) c hc hxe
      · have hxq : x = q := by simpa using hqq
        rw [hxq] at hxe
        exact hqfresh c hc hxe
    · exact hfresh x (List.mem_append.mpr (Or.inr hrest)) c hc hxe
  have hnd1 : ((done ++ [q]) ++ rest).Nodup := by
    have hperm : (done ++ (rest ++ [q])).Perm ((done ++ [q]) ++ rest) := by
      have h1 : (rest ++ [q]).Perm ([q] ++ rest) := List.perm_append_comm
      have h2 := List.Perm.append_left done h1
      have h3 : done ++ ([q] ++ rest) = (done ++ [q]) ++ rest :=
        (List.append_assoc done [q] rest).symm
      rw [h3] at h2
      exact h2
    exact hperm.nodup hnd
  refine ⟨?_, ?_, ?_⟩
  · rw [List.append_assoc, ← List.append_assoc done, ← List.append_assoc,
      List.nodup_append]
    exact ⟨hnd1, hPnodup, fun x hx hxP => hPdisj x hx hxP⟩
  · intro p hp
    rcases List.mem_append.mp hp with h | h2
    · rcases List.mem_append.mp h with hdone | hqq
      · exact hvalid p (List.mem_append.mpr (Or.inl hdone))
      · have hpq : p = q := by simpa using hqq
        subst hpq
        exact ⟨sq, csq, hdq⟩
    · rcases List.mem_append.mp h2 with hrest | hP
      · exact hvalid p
          (List.mem_append.mpr (Or.inr (List.mem_append.mpr (Or.inl hrest))))
      · obtain ⟨c, hc, hxe⟩ := hPchunk p hP
        subst hxe
        exact ⟨sq, csq ++ [c], decomp_extend hdq hc⟩
  · intro p hp s cs c hdp
    rcases List.mem_append.mp hp with h | h2
    · rcases List.mem_append.mp h with hdone | hqq
      · exact List.mem_append.mpr (Or.inl
          (hparent p (List.mem_append.mpr (Or.inl hdone)) s cs c hdp))
      · have hpq : p = q := by simpa using hqq
        subst hpq
        exact List.mem_append.mpr (Or.inl (hparent p hq s cs c hdp))
    · rcases List.mem_append.mp h2 with hrest | hP
      · exact List.mem_append.mpr (Or.inl (hparent p
          (List.mem_append.mpr (Or.inr (List.mem_append.mpr (Or.inl hrest))))
          s cs c hdp))
      · obtain ⟨c2, hc2, hxe⟩ := hPchunk p hP
        subst hxe
        have hdx : Decomp S (q ++ c2) sq (csq ++ [c2]) := decomp_extend hdq hc2
        obtain ⟨hs, hcs⟩ := decomp_unique hpf hdp hdx
        obtain ⟨hcs1, _⟩ := append_singleton_inj cs csq c c2 hcs
        subst hs
        rw [hcs1, ← hqflat]
        exact List.mem_append.mpr (Or.inr (by simp))

/-- The worklist loop never records two collected schemas at the same
location, given the invariants on the pending list. -/
theorem collectLoop_nodup_aux (doc : Json) (S : List Ptr) (hpf : PrefixFree S)
    (hw : Json.wf doc = true) :
    ∀ (fuel : Nat) (pending : List Ptr) (acc : List CollectedSchema)
      (done : List Ptr) (out : List CollectedSchema),
      (done ++ pending).Nodup →
      (∀ p ∈ done ++ pending, ∃ s cs, Decomp S p s cs) →
      (∀ p ∈ done ++ pending, ∀ s cs c, Decomp S p s (cs ++ [c]) →
        s ++ cs.flatten ∈ done) →
      (acc.map CollectedSchema.location).Nodup →
      (∀ l ∈ acc.map CollectedSchema.location, l ∈ done) →
      collectLoop doc fuel pending acc = some out →
      (out.map CollectedSchema.location).Nodup := by
  intro fuel
  induction fuel with
  | zero =>
      intro pending acc done out _ _ _ _ _ hrun
      exact absurd hrun (by simp [collectLoop])
  | succ f ih =>
      intro pending acc done out hnd hvalid hparent haccnd haccsub hrun
      cases hpop : popLast pending with
      | none =>
          have hpend : pending = [] := popLast_eq_none pending hpop
          subst hpend
          unfold collectLoop at hrun
          rw [← Option.some.inj hrun]
          exact haccnd
      | some rq =>
          obtain ⟨rest, q⟩ := rq
          have hpend : pending = rest ++ [q] := popLast_eq_some pending rest q hpop
          subst hpend
          rw [collectLoop_step doc f (rest ++ [q]) rest q acc hpop] at hrun
          have hqdone : q ∉ done := by
            intro hqd
            exact List.disjoint_of_nodup_append hnd hqd (by simp)
          split at hrun
          · exact absurd hrun (by simp)
          next v hres =>
            split at hrun
            · exact absurd hrun (by simp)
            next r hdec =>
                obtain ⟨hnd2, hvalid2, hparent2⟩ :=
                  inv_step hpf [] hnd hvalid hparent (by simp) (by simp)
                simp only [List.append_nil] at hnd2 hvalid2 hparent2
                exact ih rest acc (done ++ [q]) out hnd2 hvalid2 hparent2 haccnd
                  (fun l hl => List.mem_append.mpr (Or.inl (haccsub l hl))) hrun
            next sc hdec =>
              by_cases hcomp : sc.isComposite
              · rw [if_pos hcomp] at hrun
                split at hrun
                · exact absurd hrun (by simp)
                next nm hname =>
                  obtain ⟨hnd2, hvalid2, hparent2⟩ :=
                    inv_step hpf (branchPushes q sc) hnd hvalid hparent
                      (fun x hx => mem_branchPushes hx) (nodup_branchPushes q sc)
                  have haccnd2 : ((acc ++ [CollectedSchema.mk q nm sc]).map
                      CollectedSchema.location).Nodup := by
                    rw [List.map_append, List.nodup_append]
                    refine ⟨haccnd, by simp, ?_⟩
                    intro l hl hl2
                    have hlq : l = q := by simpa using hl2
                    subst hlq
                    exact hqdone (haccsub l hl)
                  have haccsub2 : ∀ l ∈ (acc ++ [CollectedSchema.mk q nm sc]).map
                      CollectedSchema.location, l ∈ done ++ [q] := by
                    intro l hl
                    rw [List.map_append] at hl
                    rcases List.mem_append.mp hl with h | h
                    · exact List.mem_append.mpr (Or.inl (haccsub l h))
                    · have hlq : l = q := by simpa using h
                      rw [hlq]
                      simp
                  exact ih _ _ (done ++ [q]) out hnd2 hvalid2 hparent2 haccnd2
                    haccsub2 hrun
              · rw [if_neg hcomp] at hrun
                by_cases hobj : sc.schema_type = some .object
                · rw [if_pos hobj] at hrun
                  split at hrun
                  · exact absurd hrun (by simp)
                  next nm hname =>
                    have hwv : Json.wf v = true := wf_resolve q doc v hw hres
                    have hpn := parsed_props_nodup v sc hwv hdec
                    obtain ⟨hnd2, hvalid2, hparent2⟩ :=
                      inv_step hpf (propPushes q sc) hnd hvalid hparent
                        (fun x hx => mem_propPushes hx)
                        (nodup_propPushes q sc hpn)
                    have haccnd2 : ((acc ++ [CollectedSchema.mk q nm sc]).map
                        CollectedSchema.location).Nodup := by
                      rw [List.map_append, List.nodup_append]
                      refine ⟨haccnd, by simp, ?_⟩
                      intro l hl hl2
                      have hlq : l = q := by simpa using hl2
                      subst hlq
                      exact hqdone (haccsub l hl)
                    have haccsub2 : ∀ l ∈ (acc ++ [CollectedSchema.mk q nm sc]).map
                        CollectedSchema.location, l ∈ done ++ [q] := by
                      intro l hl
                      rw [List.map_append] at hl
                      rcases List.mem_append.mp hl with h | h
                      · exact List.mem_append.mpr (Or.inl (haccsub l h))
                      · have hlq : l = q := by simpa using h
                        rw [hlq]
                        simp
                    exact ih _ _ (done ++ [q]) out hnd2 hvalid2 hparent2 haccnd2
                      haccsub2 hrun
                · rw [if_neg hobj] at hrun
                  by_cases harr : sc.schema_type = some .array
                  · rw [if_pos harr] at hrun
                    obtain ⟨hnd2, hvalid2, hparent2⟩ :=
                      inv_step hpf (itemsPushes q sc) hnd hvalid hparent
                        (fun x hx => mem_itemsPushes hx) (nodup_itemsPushes q sc)
                    exact ih _ _ (done ++ [q]) out hnd2 hvalid2 hparent2 haccnd
                      (fun l hl => List.mem_append.mpr (Or.inl (haccsub l hl)))
                      hrun
                  · rw [if_neg harr] at hrun
                    obtain ⟨hnd2, hvalid2, hparent2⟩ :=
                      inv_step hpf [] hnd hvalid hparent (by simp) (by simp)
                    simp only [List.append_nil] at hnd2 hvalid2 hparent2
                    exact ih rest acc (done ++ [q]) out hnd2 hvalid2 hparent2
                      haccnd
                      (fun l hl => List.mem_append.mpr (Or.inl (haccsub l hl)))
                      hrun

/-- Mapping commutes with flatMap. -/
theorem map_flatMap_comm {α β γ : Type} (g : β → γ) (f : α → List β) :
    ∀ l : List α, (l.flatMap f).map g = l.flatMap (fun a => (f a).map g) := by
  intro l
  induction l with
  | nil => rfl
  | cons a rest ih => simp [List.flatMap_cons, ih]

/-- The inline media-type keys of a content map with distinct keys are
distinct. -/
theorem nodup_mediaInline (content : List (String × MediaTypeM))
    (h : (content.map Prod.fst).Nodup) : (mediaInline content).Nodup := by
  apply nodup_filterMap_key _ Prod.fst id content h
  intro a _ p hp
  cases hs : a.2.schema with
  | none => rw [hs] at hp; exact absurd hp (by simp)
  | some o =>
      rw [hs] at hp
      cases o with
      | obj s =>
          simp at hp
          exact hp.symm
      | ref r => simp at hp

/-- The component-schema seed pointers are pairwise distinct. -/
theorem nodup_schemaSeeds (spec : SpecM)
    (h : (spec.components.schemas.map Prod.fst).Nodup) :
    (spec.components.schemas.map
      (fun nk => (["components", "schemas", nk.1] : Ptr))).Nodup := by
  have heq : spec.components.schemas.map
      (fun nk => (["components", "schemas", nk.1] : Ptr)) =
      (spec.components.schemas.map Prod.fst).map
        (fun n => ["components", "schemas", n]) := by
    rw [List.map_map]
    rfl
  rw [heq]
  refine h.map ?_
  intro a b hab
  simpa using hab

/-- The component-response seed pointers are pairwise distinct. -/
theorem nodup_responseSeeds (spec : SpecM)
    (hkeys : (spec.components.responses.map Prod.fst).Nodup)
    (hwf : ∀ nr ∈ spec.components.responses, wfRespRef nr.2 = true) :
    (spec.components.responses.flatMap (fun nr =>
      match nr.2 with
      | .obj robj => (mediaInline robj.content).map
          (fun m => (["components", "responses", nr.1, "content", m,
            "schema"] : Ptr))
      | .ref _ => [])).Nodup := by
  apply nodup_flatMap_key _ Prod.fst (fun p => p.getD 2 "") _ hkeys
  · intro nr hnr
    cases hv : nr.2 with
    | obj robj =>
        have hc : wfContent robj.content = true := by
          have hr := hwf nr hnr
          rw [hv] at hr
          exact hr
        rw [wfContent, decide_eq_true_eq] at hc
        exact (nodup_mediaInline robj.content hc).map
          (fun a b hab => by simpa using hab)
    | ref r => simp
  · intro nr hnr p hp
    cases hv : nr.2 with
    | obj robj =>
        rw [hv] at hp
        simp only [List.mem_map] at hp
        obtain ⟨m, _, hm⟩ := hp
        rw [← hm]
        rfl
    | ref r => rw [hv] at hp; simp at hp

/-- The component-request-body seed pointers are pairwise distinct. -/
theorem nodup_requestBodySeeds (spec : SpecM)
    (hkeys : (spec.components.request_bodies.map Prod.fst).Nodup)
    (hwf : ∀ nr ∈ spec.components.request_bodies, wfReqBodyRef nr.2 = true) :
    (spec.components.request_bodies.flatMap (fun nr =>
      match nr.2 with
      | .obj robj => (mediaInline robj.content).map
          (fun m => (["components", "requestBodies", nr.1, "content", m,
            "schema"] : Ptr))
      | .ref _ => [])).Nodup := by
  apply nodup_flatMap_key _ Prod.fst (fun p => p.getD 2 "") _ hkeys
  · intro nr hnr
    cases hv : nr.2 with
    | obj robj =>
        have hc : wfContent robj.content = true := by
          have hr := hwf nr hnr
          rw [hv] at hr
          exact hr
        rw [wfContent, decide_eq_true_eq] at hc
        exact (nodup_mediaInline robj.content hc).map
          (fun a b hab => by simpa using hab)
    | ref r => simp
  · intro nr hnr p hp
    cases hv : nr.2 with
    | obj robj =>
        rw [hv] at hp
        simp only [List.mem_map] at hp
        obtain ⟨m, _, hm⟩ := hp
        rw [← hm]
        rfl
    | ref r => rw [hv] at hp; simp at hp

/-- The component-parameter seed pointers are pairwise distinct. -/
theorem nodup_parameterSeeds (spec : SpecM)
    (hkeys : (spec.components.parameters.map Prod.fst).Nodup) :
    (spec.components.parameters.filterMap (fun np =>
      match np.2 with
      | .obj pobj =>
          if pobj.schema.isSome then
            some (["components", "parameters", np.1, "schema"] : Ptr)
          else none
      | .ref _ => none)).Nodup := by
  apply nodup_filterMap_key _ Prod.fst (fun p => p.getD 2 "") _ hkeys
  intro a _ p hp
  cases hv : a.2 with
  | obj pobj =>
      rw [hv] at hp
      simp at hp
      obtain ⟨_, hp⟩ := hp
      rw [← hp]
      rfl
  | ref r => rw [hv] at hp; simp at hp

/-- Shape of the per-operation parameter seed pointers. -/
theorem mem_opParamSeeds {path mth : String} {op : OperationM} {x : Ptr}
    (h : x ∈ opParamSeeds path mth op) :
    ∃ i, x = ["paths", path, mth, "parameters", natToString i, "schema"] := by
  simp only [opParamSeeds, List.mem_filterMap] at h
  obtain ⟨ip, _, hip⟩ := h
  cases hv : ip.2 with
  | obj pobj =>
      rw [hv] at hip
      simp at hip
      obtain ⟨_, hip⟩ := hip
      exact ⟨ip.1, hip.symm⟩
  | ref r => rw [hv] at hip; simp at hip

/-- Shape of the per-operation request-body seed pointers. -/
theorem mem_opReqBodySeeds {path mth : String} {op : OperationM} {x : Ptr}
    (h : x ∈ opReqBodySeeds path mth op) :
    ∃ m, x = ["paths", path, mth, "requestBody", "content", m, "schema"] := by
  unfold opReqBodySeeds at h
  cases hrb : op.request_body with
  | none => rw [hrb] at h; simp at h
  | some o =>
      rw [hrb] at h
      cases o with
      | obj r =>
          simp at h
          obtain ⟨m, _, hm⟩ := h
          exact ⟨m, hm.symm⟩
      | ref r => simp at h

/-- Shape of the per-operation response seed pointers. -/
theorem mem_opResponseSeeds {path mth : String} {op : OperationM} {x : Ptr}
    (h : x ∈ opResponseSeeds path mth op) :
    ∃ st m, x = ["paths", path, mth, "responses", st, "content", m,
      "schema"] := by
  simp only [opResponseSeeds, List.mem_flatMap] at h
  obtain ⟨sr, _, hsr⟩ := h
  cases hv : sr.2 with
  | obj robj =>
      rw [hv] at hsr
      simp at hsr
      obtain ⟨m, _, hm⟩ := hsr
      exact ⟨sr.1, m, hm.symm⟩
  | ref r => rw [hv] at hsr; simp at hsr

/-- The parameter seed pointers of one operation are pairwise distinct. -/
theorem nodup_opParamSeeds (path mth : String) (op : OperationM) :
    (opParamSeeds path mth op).Nodup := by
  unfold opParamSeeds
  apply nodup_filterMap_key _ (fun ip => natToString ip.1) (fun p => p.getD 4 "")
  · have h1 : op.parameters.enum.map (fun ip => natToString ip.1) =
        (List.range op.parameters.length).map natToString := by
      rw [← List.enum_map_fst op.parameters, List.map_map]
      rfl
    rw [h1]
    exact (List.nodup_range _).map (fun a b hab => natToString_inj a b hab)
  · intro a _ p hp
    cases hv : a.2 with
    | obj pobj =>
        rw [hv] at hp
        simp at hp
        obtain ⟨_, hp⟩ := hp
        rw [← hp]
        rfl
    | ref r => rw [hv] at hp; simp at hp

/-- The request-body seed pointers of one operation are pairwise
distinct. -/
theorem nodup_opReqBodySeeds (path mth : String) (op : OperationM)
    (hwf : wfOperation op = true) :
    (opReqBodySeeds path mth op).Nodup := by
  unfold opReqBodySeeds
  cases hrb : op.request_body with
  | none => simp
  | some o =>
      cases o with
      | obj r =>
          have hc : wfContent r.content = true := by
            unfold wfOperation at hwf
            rw [Bool.and_eq_true, Bool.and_eq_true] at hwf
            have h3 := hwf.2
            rw [hrb] at h3
            exact h3
          rw [wfContent, decide_eq_true_eq] at hc
          exact (nodup_mediaInline r.content hc).map
            (fun a b hab => by simpa using hab)
      | ref r => simp

/-- The response seed pointers of one operation are pairwise distinct. -/
theorem nodup_opResponseSeeds (path mth : String) (op : OperationM)
    (hkeys : (op.responses.map Prod.fst).Nodup)
    (hwf : ∀ sr ∈ op.responses, wfRespRef sr.2 = true) :
    (opResponseSeeds path mth op).Nodup := by
  unfold opResponseSeeds
  apply nodup_flatMap_key _ Prod.fst (fun p => p.getD 4 "") _ hkeys
  · intro sr hsr
    cases hv : sr.2 with
    | obj robj =>
        have hc : wfContent robj.content = true := by
          have hr := hwf sr hsr
          rw [hv] at hr
          exact hr
        rw [wfContent, decide_eq_true_eq] at hc
        exact (nodup_mediaInline robj.content hc).map
          (fun a b hab => by simpa using hab)
    | ref r => simp
  · intro sr hsr p hp
    cases hv : sr.2 with
    | obj robj =>
        rw [hv] at hp
        simp only [List.mem_map] at hp
        obtain ⟨m, _, hm⟩ := hp
        rw [← hm]
        rfl
    | ref r => rw [hv] at hp; simp at hp

/-- All seed pointers of one operation are pairwise distinct. -/
theorem nodup_opSeeds (path mth : String) (op : OperationM)
    (hwf : wfOperation op = true) :
    (opParamSeeds path mth op ++ opReqBodySeeds path mth op ++
      opResponseSeeds path mth op).Nodup := by
  have hw := hwf
  unfold wfOperation at hw
  rw [Bool.and_eq_true, Bool.and_eq_true] at hw
  obtain ⟨⟨h1, h2⟩, _⟩ := hw
  rw [decide_eq_true_eq] at h1
  rw [List.all_eq_true] at h2
  rw [List.nodup_append, List.nodup_append]
  refine ⟨⟨nodup_opParamSeeds path mth op,
    nodup_opReqBodySeeds path mth op hwf, ?_⟩,
    nodup_opResponseSeeds path mth op h1 h2, ?_⟩
  · intro x hx1 hx2
    obtain ⟨i, hxi⟩ := mem_opParamSeeds hx1
    obtain ⟨m, hxm⟩ := mem_opReqBodySeeds hx2
    rw [hxi] at hxm
    simp at hxm
  · intro x hx1 hx2
    obtain ⟨st, m, hxm⟩ := mem_opResponseSeeds hx2
    rcases List.mem_append.mp hx1 with h3 | h3
    · obtain ⟨i, hxi⟩ := mem_opParamSeeds h3
      rw [hxi] at hxm
      simp at hxm
    · obtain ⟨m2, hxi⟩ := mem_opReqBodySeeds h3
      rw [hxi] at hxm
      simp at hxm

/-- The seed pointers over all operations are pairwise distinct. -/
theorem nodup_operationSeeds (spec : SpecM)
    (hpaths : (spec.paths.map Prod.fst).Nodup)
    (hper : ∀ pi ∈ spec.paths, (pi.2.map Prod.fst).Nodup ∧
      ∀ mo ∈ pi.2, wfOperation mo.2 = true) :
    ((specOperations spec).flatMap (fun pmo =>
      opParamSeeds pmo.1 pmo.2.1 pmo.2.2 ++
      opReqBodySeeds pmo.1 pmo.2.1 pmo.2.2 ++
      opResponseSeeds pmo.1 pmo.2.1 pmo.2.2)).Nodup := by
  apply nodup_flatMap_key _ (fun pmo => (pmo.1, pmo.2.1))
    (fun p => (p.getD 1 "", p.getD 2 ""))
  · unfold specOperations
    rw [map_flatMap_comm]
    apply nodup_flatMap_key _ Prod.fst (fun pr : String × String => pr.1) _
      hpaths
    · intro pi hpi
      have h1 : (pi.2.map (fun mo => (pi.1, mo.1, mo.2))).map
          (fun pmo => (pmo.1, pmo.2.1)) =
          (pi.2.map Prod.fst).map (fun m => (pi.1, m)) := by
        rw [List.map_map, List.map_map]
        rfl
      rw [h1]
      exact ((hper pi hpi).1).map (fun a b hab => by simpa using hab)
    · intro pi hpi pr hpr
      simp only [List.map_map, List.mem_map] at hpr
      obtain ⟨mo, _, hmo⟩ := hpr
      rw [← hmo]
      rfl
  · intro pmo hpmo
    have hex : ∃ pi ∈ spec.paths, ∃ mo ∈ pi.2, pmo = (pi.1, mo.1, mo.2) := by
      unfold specOperations at hpmo
      simp only [List.mem_flatMap, List.mem_map] at hpmo
      obtain ⟨pi, hpi, mo, hmo, hpm⟩ := hpmo
      exact ⟨pi, hpi, mo, hmo, hpm.symm⟩
    obtain ⟨pi, hpi, mo, hmo, hpm⟩ := hex
    have hwf : wfOperation pmo.2.2 = true := by
      rw [hpm]
      exact ((hper pi hpi).2) mo hmo
    exact nodup_opSeeds pmo.1 pmo.2.1 pmo.2.2 hwf
  · intro pmo _ p hp
    rcases List.mem_append.mp hp with h3 | h3
    · rcases List.mem_append.mp h3 with h4 | h4
      · obtain ⟨i, hx⟩ := mem_opParamSeeds h4
        rw [hx]
        rfl
      · obtain ⟨m, hx⟩ := mem_opReqBodySeeds h4
        rw [hx]
        rfl
    · obtain ⟨st, m, hx⟩ := mem_opResponseSeeds h3
      rw [hx]
      rfl

/-- Shape of the component-schema seed pointers. -/
theorem mem_schemaCompSeeds {spec : SpecM} {x : Ptr}
    (h : x ∈ spec.components.schemas.map
      (fun nk => (["components", "schemas", nk.1] : Ptr))) :
    ∃ n, x = ["components", "schemas", n] := by
  simp only [List.mem_map] at h
  obtain ⟨nk, _, hx⟩ := h
  exact ⟨nk.1, hx.symm⟩

/-- Shape of the component-response seed pointers. -/
theorem mem_respCompSeeds {spec : SpecM} {x : Ptr}
    (h : x ∈ spec.components.responses.flatMap (fun nr =>
      match nr.2 with
      | .obj robj => (mediaInline robj.content).map
          (fun m => (["components", "responses", nr.1, "content", m,
            "schema"] : Ptr))
      | .ref _ => [])) :
    ∃ n m, x = ["components", "responses", n, "content", m, "schema"] := by
  simp only [List.mem_flatMap] at h
  obtain ⟨nr, _, hnr⟩ := h
  cases hv : nr.2 with
  | obj robj =>
      rw [hv] at hnr
      simp only [List.mem_map] at hnr
      obtain ⟨m, _, hm⟩ := hnr
      exact ⟨nr.1, m, hm.symm⟩
  | ref r => rw [hv] at hnr; simp at hnr

/-- Shape of the component-parameter seed pointers. -/
theorem mem_paramCompSeeds {spec : SpecM} {x : Ptr}
    (h : x ∈ spec.components.parameters.filterMap (fun np =>
      match np.2 with
      | .obj pobj =>
          if pobj.schema.isSome then
            some (["components", "parameters", np.1, "schema"] : Ptr)
          else none
      | .ref _ => none)) :
    ∃ n, x = ["components", "parameters", n, "schema"] := by
  simp only [List.mem_filterMap] at h
  obtain ⟨np, _, hnp⟩ := h
  cases hv : np.2 with
  | obj pobj =>
      rw [hv] at hnp
      simp at hnp
      obtain ⟨_, hnp⟩ := hnp
      exact ⟨np.1, hnp.symm⟩
  | ref r => rw [hv] at hnp; simp at hnp

/-- Shape of the component-request-body seed pointers. -/
theorem mem_reqBodyCompSeeds {spec : SpecM} {x : Ptr}
    (h : x ∈ spec.components.request_bodies.flatMap (fun nr =>
      match nr.2 with
      | .obj robj => (mediaInline robj.content).map
          (fun m => (["components", "requestBodies", nr.1, "content", m,
            "schema"] : Ptr))
      | .ref _ => [])) :
    ∃ n m, x = ["components", "requestBodies", n, "content", m, "schema"] := by
  simp only [List.mem_flatMap] at h
  obtain ⟨nr, _, hnr⟩ := h
  cases hv : nr.2 with
  | obj robj =>
      rw [hv] at hnr
      simp only [List.mem_map] at hnr
      obtain ⟨m, _, hm⟩ := hnr
      exact ⟨nr.1, m, hm.symm⟩
  | ref r => rw [hv] at hnr; simp at hnr

/-- Every seed pointer has one of the seven seed shapes. -/
theorem mem_collectInitial {spec : SpecM} {x : Ptr}
    (h : x ∈ collectInitial spec) :
    (∃ n, x = ["components", "schemas", n]) ∨
    (∃ n m, x = ["components", "responses", n, "content", m, "schema"]) ∨
    (∃ n, x = ["components", "parameters", n, "schema"]) ∨
    (∃ n m, x = ["components", "requestBodies", n, "content", m,
      "schema"]) ∨
    (∃ pa mt i, x = ["paths", pa, mt, "parameters", natToString i,
      "schema"]) ∨
    (∃ pa mt m, x = ["paths", pa, mt, "requestBody", "content", m,
      "schema"]) ∨
    (∃ pa mt st m, x = ["paths", pa, mt, "responses", st, "content", m,
      "schema"]) := by
  unfold collectInitial at h
  rcases List.mem_append.mp h with h | hE
  · rcases List.mem_append.mp h with h | hD
    · rcases List.mem_append.mp h with h | hC
      · rcases List.mem_append.mp h with hA | hB
        · exact Or.inl (mem_schemaCompSeeds hA)
        · exact Or.inr (Or.inl (mem_respCompSeeds hB))
      · exact Or.inr (Or.inr (Or.inl (mem_paramCompSeeds hC)))
    · exact Or.inr (Or.inr (Or.inr (Or.inl (mem_reqBodyCompSeeds hD))))
  · simp only [List.mem_flatMap] at hE
    obtain ⟨pmo, _, hp⟩ := hE
    rcases List.mem_append.mp hp with h3 | h3
    · rcases List.mem_append.mp h3 with h4 | h4
      · obtain ⟨i, hx⟩ := mem_opParamSeeds h4
        exact Or.inr (Or.inr (Or.inr (Or.inr (Or.inl
          ⟨pmo.1, pmo.2.1, i, hx⟩))))
      · obtain ⟨m, hx⟩ := mem_opReqBodySeeds h4
        exact Or.inr (Or.inr (Or.inr (Or.inr (Or.inr (Or.inl
          ⟨pmo.1, pmo.2.1, m, hx⟩)))))
    · obtain ⟨st, m, hx⟩ := mem_opResponseSeeds h3
      exact Or.inr (Or.inr (Or.inr (Or.inr (Or.inr (Or.inr
        ⟨pmo.1, pmo.2.1, st, m, hx⟩)))))

/-- No seed pointer extends another seed pointer. -/
theorem seeds_prefixFree (spec : SpecM) : PrefixFree (collectInitial spec) := by
  intro s1 h1 s2 h2 ht
  obtain ⟨t, ht⟩ := ht
  rcases mem_collectInitial h1 with ⟨n, rfl⟩ | ⟨n, m, rfl⟩ | ⟨n, rfl⟩ |
    ⟨n, m, rfl⟩ | ⟨pa, mt, i, rfl⟩ | ⟨pa, mt, m, rfl⟩ |
    ⟨pa, mt, st, m, rfl⟩ <;>
  rcases mem_collectInitial h2 with ⟨n2, rfl⟩ | ⟨n2, m2, rfl⟩ | ⟨n2, rfl⟩ |
    ⟨n2, m2, rfl⟩ | ⟨pa2, mt2, i2, rfl⟩ | ⟨pa2, mt2, m2, rfl⟩ |
    ⟨pa2, mt2, st2, m2, rfl⟩ <;>
  simp_all

/-- The well-formedness of a spec, unpacked into its conjuncts. -/
theorem wfSpec_fields (spec : SpecM) (h : wfSpec spec = true) :
    (spec.components.schemas.map Prod.fst).Nodup ∧
    (spec.components.responses.map Prod.fst).Nodup ∧
    (spec.components.parameters.map Prod.fst).Nodup ∧
    (spec.components.request_bodies.map Prod.fst).Nodup ∧
    (∀ nr ∈ spec.components.responses, wfRespRef nr.2 = true) ∧
    (∀ nr ∈ spec.components.request_bodies, wfReqBodyRef nr.2 = true) ∧
    (spec.paths.map Prod.fst).Nodup ∧
    (∀ pi ∈ spec.paths, (pi.2.map Prod.fst).Nodup ∧
      ∀ mo ∈ pi.2, wfOperation mo.2 = true) := by
  unfold wfSpec at h
  simp only [Bool.and_eq_true, decide_eq_true_eq, List.all_eq_true] at h
  obtain ⟨⟨⟨⟨⟨⟨⟨h1, h2⟩, h3⟩, h4⟩, h5⟩, h6⟩, h7⟩, h8⟩ := h
  refine ⟨h1, h2, h3, h4, h5, h6, h7, ?_⟩
  intro pi hpi
  have hp := h8 pi hpi
  simp only [Bool.and_eq_true, decide_eq_true_eq, List.all_eq_true] at hp
  exact hp

/-- The seed worklist of a well-formed spec has pairwise distinct
pointers. -/
theorem seeds_nodup (spec : SpecM) (h : wfSpec spec = true) :
    (collectInitial spec).Nodup := by
  obtain ⟨h1, h2, h3, h4, h5, h6, h7, h8⟩ := wfSpec_fields spec h
  unfold collectInitial
  rw [List.nodup_append, List.nodup_append, List.nodup_append,
    List.nodup_append]
  refine ⟨⟨⟨⟨nodup_schemaSeeds spec h1, nodup_responseSeeds spec h2 h5, ?_⟩,
    nodup_parameterSeeds spec h3, ?_⟩,
    nodup_requestBodySeeds spec h4 h6, ?_⟩,
    nodup_operationSeeds spec h7 h8, ?_⟩
  · intro x hxA hxB
    obtain ⟨n, hn⟩ := mem_schemaCompSeeds hxA
    obtain ⟨n2, m2, hm⟩ := mem_respCompSeeds hxB
    rw [hn] at hm
    simp at hm
  · intro x hx hxC
    obtain ⟨n2, hn2⟩ := mem_paramCompSeeds hxC
    rcases List.mem_append.mp hx with hA | hB
    · obtain ⟨n, hn⟩ := mem_schemaCompSeeds hA
      rw [hn] at hn2
      simp at hn2
    · obtain ⟨n, m, hn⟩ := mem_respCompSeeds hB
      rw [hn] at hn2
      simp at hn2
  · intro x hx hxD
    obtain ⟨n2, m2, hn2⟩ := mem_reqBodyCompSeeds hxD
    rcases List.mem_append.mp hx with h9 | hC
    · rcases List.mem_append.mp h9 with hA | hB
      · obtain ⟨n, hn⟩ := mem_schemaCompSeeds hA
        rw [hn] at hn2
        simp at hn2
      · obtain ⟨n, m, hn⟩ := mem_respCompSeeds hB
        rw [hn] at hn2
        simp at hn2
    · obtain ⟨n, hn⟩ := mem_paramCompSeeds hC
      rw [hn] at hn2
      simp at hn2
  · intro x hx hxE
    simp only [List.mem_flatMap] at hxE
    obtain ⟨pmo, _, hp⟩ := hxE
    have hpaths : ∃ t, x = "paths" :: t := by
      rcases List.mem_append.mp hp with h3 | h3
      · rcases List.mem_append.mp h3 with h4 | h4
        · obtain ⟨i, hx4⟩ := mem_opParamSeeds h4
          exact ⟨_, hx4⟩
        · obtain ⟨m, hx4⟩ := mem_opReqBodySeeds h4
          exact ⟨_, hx4⟩
      · obtain ⟨st, m, hx4⟩ := mem_opResponseSeeds h3
        exact ⟨_, hx4⟩
    obtain ⟨t, hxt⟩ := hpaths
    rcases List.mem_append.mp hx with h9 | hD
    · rcases List.mem_append.mp h9 with h10 | hC
      · rcases List.mem_append.mp h10 with hA | hB
        · obtain ⟨n, hn⟩ := mem_schemaCompSeeds hA
          rw [hn] at hxt
          simp at hxt
        · obtain ⟨n, m, hn⟩ := mem_respCompSeeds hB
          rw [hn] at hxt
          simp at hxt
      · obtain ⟨n, hn⟩ := mem_paramCompSeeds hC
        rw [hn] at hxt
        simp at hxt
    · obtain ⟨n, m, hn⟩ := mem_reqBodyCompSeeds hD
      rw [hn] at hxt
      simp at hxt

/-- C6: for every input spec that deserializes successfully (embedded as
the serde map-key invariants `wfSpec` on the spec model together with
well-formedness of the serialized document), the collected-schema list
produced by the analysis worklist contains no two entries with the same
location pointer. -/
theorem c6_locations_unique (spec : SpecM) (doc : Json) (fuel : Nat)
    (out : List CollectedSchema)
    (hspec : wfSpec spec = true) (hdoc : Json.wf doc = true)
    (hrun : collectLoop doc fuel (collectInitial spec) [] = some out) :
    (out.map CollectedSchema.location).Nodup := by
  refine collectLoop_nodup_aux doc (collectInitial spec)
    (seeds_prefixFree spec) hdoc fuel (collectInitial spec) [] [] out
    ?_ ?_ ?_ (by simp) (by simp) hrun
  · simpa using seeds_nodup spec hspec
  · intro p hp
    simp only [List.nil_append] at hp
    exact ⟨p, [], hp, [], by simp, rfl⟩
  · intro p hp s cs c hd
    simp only [List.nil_append] at hp
    have hd0 : Decomp (collectInitial spec) p p [] := ⟨hp, [], by simp, rfl⟩
    obtain ⟨_, hcs⟩ := decomp_unique (seeds_prefixFree spec) hd hd0
    exact absurd hcs (by simp)

/-- The collected-schema list of the worklist run on `kindDoc`. -/
def c6RunOut : List CollectedSchema :=
  (collectLoop kindDoc 5 (collectInitial kindSpec) []).getD []

/-- C6 witness: the run on the one-composite spec collects pairwise
distinct locations. -/
theorem c6_locations_unique_witness :
    (c6RunOut.map CollectedSchema.location).Nodup :=
  c6_locations_unique kindSpec kindDoc 5 c6RunOut (by decide) (by decide) rfl

end OapiRustgen
